import Mathlib

/-!
# Verification of the CIDR / gap-detection core of `rust-azure-subnet-summary`

Shallow embedding of the repository's core logic:
 * `src/models/ipv4.rs` — CIDR arithmetic (`get_cidr_mask`, `cut_addr`,
   `broadcast_addr`, `ip_after_subnet`, `num_az_hosts`, `lo_mask`,
   `next_subnet_ipv4`, the `Ipv4` struct, serde deserialization, `Ipv4::new`)
 * `src/processing/gap_finder.rs` — `find_biggest_subnet`, `process_subnet_row`
 * `src/processing/dedup.rs` — `de_duplicate_subnets`
 * `src/processing/overlap.rs` — `find_overlapping_vnets`

IPv4 addresses are modelled as `Nat` below `2^32` (Rust `u32`); masks as `Nat`
(Rust `u8`).  Fallible Rust code (`Result`, and `panic!` / `assert!` /
`.unwrap()` aborts) is modelled with `Option`: `none` means the Rust code
returns an error or aborts the run.
-/

namespace SubnetSummary

/-- `MAX_LENGTH` from `src/models/ipv4.rs`. -/
def MAX_LENGTH : Nat := 32

/-- `get_cidr_mask` from `src/models/ipv4.rs`:
`((u32::MAX as u64) >> (32-len)) << (32-len)`, error when `len > 32`. -/
def get_cidr_mask (len : Nat) : Option Nat :=
  if len > MAX_LENGTH then none
  else
    let right_len := MAX_LENGTH - len
    let all_bits := 2 ^ 32 - 1
    some ((all_bits >>> right_len) <<< right_len)

/-- `cut_addr` from `src/models/ipv4.rs`: clears the low `32-len` bits
(the network address), error when `len > 32`. -/
def cut_addr (addr len : Nat) : Option Nat :=
  if len > MAX_LENGTH then none
  else
    let right_len := MAX_LENGTH - len
    some ((addr >>> right_len) <<< right_len)

/-- Bitwise NOT on a 32-bit value (`!mask` on Rust `u32`):
complement inside `2^32`. -/
def u32_not (n : Nat) : Nat := 2 ^ 32 - 1 - n

/-- `broadcast_addr` from `src/models/ipv4.rs`:
`(addr & mask) | !mask`, error when `len > 32`. -/
def broadcast_addr (addr len : Nat) : Option Nat :=
  if len > MAX_LENGTH then none
  else
    (get_cidr_mask len).map fun mask =>
      (addr &&& mask) ||| u32_not mask

/-- `ip_after_subnet` from `src/models/ipv4.rs`:
network address plus `1 << (32-cidr)`, error when `cidr > 32` or when the
`u32` addition `network + subnet_size` overflows (`checked_add`). -/
def ip_after_subnet (addr cidr : Nat) : Option Nat :=
  if cidr > MAX_LENGTH then none
  else
    let subnet_size := 1 <<< (MAX_LENGTH - cidr)
    (get_cidr_mask cidr).bind fun mask =>
      let network_bits := addr &&& mask
      if network_bits + subnet_size > 2 ^ 32 - 1 then none
      else some (network_bits + subnet_size)

/-- `num_az_hosts` from `src/models/ipv4.rs`:
`2^(32-len) - 5` usable Azure hosts, error when `len >= 30`. -/
def num_az_hosts (len : Nat) : Option Nat :=
  if len ≥ MAX_LENGTH - 2 then none
  else some ((1 <<< (MAX_LENGTH - len)) - 5)

/-- Trailing-zero count with explicit fuel (`u32::trailing_zeros`;
the fuel of 32 encodes the 32-bit width, so `0` has 32 trailing zeros). -/
def trailing_zeros_aux : Nat → Nat → Nat
  | 0, _ => 0
  | fuel + 1, n => if n % 2 = 1 then 0 else trailing_zeros_aux fuel (n / 2) + 1

/-- `u32::trailing_zeros` for a value below `2^32`. -/
def u32_trailing_zeros (n : Nat) : Nat := trailing_zeros_aux 32 n

/-- `lo_mask` from `src/models/ipv4.rs`: `32 - trailing_zeros`. -/
def lo_mask (ip : Nat) : Nat := 32 - u32_trailing_zeros ip

/-- The `Ipv4` struct from `src/models/ipv4.rs`: address plus mask length. -/
structure Ipv4 where
  addr : Nat
  mask : Nat
deriving DecidableEq, Repr

/-- `Ipv4::lo` (`cut_addr(self.addr, self.mask)`, panic on error → `none`). -/
def Ipv4.lo (c : Ipv4) : Option Nat := cut_addr c.addr c.mask

/-- `Ipv4::hi` (`broadcast_addr(self.addr, self.mask)`, panic on error → `none`). -/
def Ipv4.hi (c : Ipv4) : Option Nat := broadcast_addr c.addr c.mask

/-- `Ipv4::broadcast`: the broadcast address paired with the same mask. -/
def Ipv4.broadcast (c : Ipv4) : Option Ipv4 :=
  (broadcast_addr c.addr c.mask).map fun b => ⟨b, c.mask⟩

/-- `Ipv4::contains` from `src/ipv4.rs`: `ip >= self.lo() && ip <= self.hi()`
(the `lo`/`hi` panics propagate as `none`). -/
def Ipv4.contains (c : Ipv4) (ip : Nat) : Option Bool :=
  c.lo.bind fun l => c.hi.map fun h => decide (l ≤ ip) && decide (ip ≤ h)

/-- `next_subnet_ipv4` from `src/models/ipv4.rs`. -/
def next_subnet_ipv4 (ipv4 : Ipv4) (mask : Option Nat) : Option Ipv4 :=
  let current_mask := ipv4.mask
  let new_mask := mask.getD current_mask
  if new_mask ≤ current_mask then
    (ip_after_subnet ipv4.addr new_mask).map fun a => ⟨a, new_mask⟩
  else
    (broadcast_addr ipv4.addr current_mask).bind fun current_broadcast =>
      (ip_after_subnet current_broadcast new_mask).map fun a => ⟨a, new_mask⟩

/-! ## Arithmetic normal forms

Spec-level total counterparts of `lo` / `hi` used in theorem statements:
for `mask ≤ 32` and `addr < 2^32` they agree with the embedded functions. -/

/-- Network address of a CIDR, in arithmetic normal form. -/
def loAddr (c : Ipv4) : Nat :=
  c.addr / 2 ^ (32 - c.mask) * 2 ^ (32 - c.mask)

/-- Broadcast address of a CIDR, in arithmetic normal form. -/
def hiAddr (c : Ipv4) : Nat :=
  loAddr c + (2 ^ (32 - c.mask) - 1)

def find_biggest_loop (start_ip below_lo : Nat) : Nat → Nat → Option Nat
  | _, 0 => none
  | next_mask, fuel + 1 =>
    match broadcast_addr start_ip next_mask with
    | none => none
    | some hi =>
      if hi ≥ below_lo then find_biggest_loop start_ip below_lo (next_mask + 1) fuel
      else some next_mask

/-- `find_biggest_subnet` from `src/processing/gap_finder.rs`: the failed
`assert!(start_mask <= 32)` and a panic inside `hi()` both give `none`. -/
def find_biggest_subnet (start_ip start_mask : Nat) (below_subnet_cidr : Ipv4) :
    Option Nat :=
  if start_mask > 32 then none
  else
    let min_mask_for_alignment := lo_mask start_ip
    match below_subnet_cidr.lo with
    | none => none
    | some below_lo =>
      find_biggest_loop start_ip below_lo (max start_mask min_mask_for_alignment) 34

/-- The `Subnet` struct from `src/models/subnet.rs`. -/
structure Subnet where
  vnet_name : String
  vnet_cidr : List Ipv4
  subnet_name : String
  subnet_cidr : Option Ipv4
  nsg : Option String
  location : String
  dns_servers : Option (List String)
  subscription_id : String
  subscription_name : String
  ip_configurations_count : Option Nat
  gap : Option String
  src_index : Nat
  block_id : Nat
deriving DecidableEq, Repr

/-- `Default for Subnet` from `src/models/subnet.rs`. -/
def defaultSubnet : Subnet where
  vnet_name := "blank"
  vnet_cidr := []
  subnet_name := ""
  subnet_cidr := none
  nsg := none
  location := "blank"
  dns_servers := none
  subscription_id := "blank"
  subscription_name := "blank"
  ip_configurations_count := none
  gap := some "blank"
  src_index := 0
  block_id := 0

/-- Dotted-quad rendering of a `u32` address (`Display for Ipv4Addr`). -/
def ipv4_addr_repr (a : Nat) : String :=
  toString (a / 2 ^ 24 % 2 ^ 8) ++ "." ++ toString (a / 2 ^ 16 % 2 ^ 8) ++ "."
    ++ toString (a / 2 ^ 8 % 2 ^ 8) ++ "." ++ toString (a % 2 ^ 8)

/-- `Display for Ipv4` (`"{addr}/{mask}"`). -/
def Ipv4.display (c : Ipv4) : String := ipv4_addr_repr c.addr ++ "/" ++ toString c.mask

/-- `format_vnet_cidr` from `src/processing/gap_finder.rs`. -/
def format_vnet_cidr (cidrs : List Ipv4) : String :=
  String.intercalate "," (cidrs.map Ipv4.display)

/-- Rust `str::split(sep)` on a character: the separator-delimited pieces,
empty pieces included (an empty input gives one empty piece). -/
def split_char (sep : Char) : List Char → List (List Char)
  | [] => [[]]
  | c :: rest =>
    if c = sep then [] :: split_char sep rest
    else
      match split_char sep rest with
      | [] => [[c]]
      | p :: ps => (c :: p) :: ps

/-- `extract_nsg_name` from `src/processing/gap_finder.rs`: last `/`-separated
segment of the resource id, `"None"` when absent. -/
def extract_nsg_name (nsg : Option String) : String :=
  (((split_char '/' (nsg.getD "None").data).map String.mk).getLastD "None")

/-- `format_dns_servers` from `src/processing/gap_finder.rs`. -/
def format_dns_servers (dns : Option (List String)) : String :=
  match dns with
  | some servers => String.intercalate "," servers
  | none => "None"

/-- The `SubnetPrintRow` struct from `src/processing/gap_finder.rs`.
The source stores `subnet_cidr` as its `to_string()` rendering (`"none"` for a
subnet without a CIDR); the embedding keeps the underlying value itself, which
the rendering displays injectively. -/
structure SubnetPrintRow where
  j : Nat
  gap : String
  subnet_cidr : Option Ipv4
  broadcast : String
  az_hosts : Nat
  subnet_name : String
  subscription_name : String
  vnet_cidr : String
  vnet_name : String
  location : String
  nsg : String
  dns : String
  subscription_id : String
  ip_configurations_count : Nat
deriving DecidableEq, Repr

/-- `create_row_from_subnet` from `src/processing/gap_finder.rs`. -/
def create_row_from_subnet (s : Subnet) (i : Nat) (gap : String)
    (cidr : Option Ipv4) (broadcast : String) (az_hosts : Nat) : SubnetPrintRow where
  j := i + 1
  gap := gap
  subnet_cidr := cidr
  broadcast := broadcast
  az_hosts := az_hosts
  subnet_name := s.subnet_name
  subscription_name := s.subscription_name
  vnet_cidr := format_vnet_cidr s.vnet_cidr
  vnet_name := s.vnet_name
  location := s.location
  nsg := extract_nsg_name s.nsg
  dns := format_dns_servers s.dns_servers
  subscription_id := s.subscription_id
  ip_configurations_count := s.ip_configurations_count.getD 0

/-- Short-circuiting `Iterator::any` over a fallible predicate: a panic in the
predicate (modelled by `none`) aborts unless an earlier element already
returned `true`. -/
def any_option (f : α → Option Bool) : List α → Option Bool
  | [] => some false
  | a :: as =>
    match f a with
    | none => none
    | some true => some true
    | some false => any_option f as

/-! ## `process_subnet_row` (src/processing/gap_finder.rs)

The gap `while` loop advances `next_ip` by at least one address per iteration
(each emitted block is nonempty), so the fuel `below_lo - next_ip` passed by
`process_subnet_row_core` makes the fuel-based loop agree with the source
loop; `.unwrap()` and `assert!` aborts are `none`. -/

def gap_rows_loop (s : Subnet) (subnet_cidr : Ipv4) (default_cidr_mask : Nat) :
    Nat → Nat → Nat → Option (Nat × List SubnetPrintRow)
  | 0, next_ip, below_lo =>
    if next_ip < below_lo then none else some (next_ip, [])
  | fuel + 1, next_ip, below_lo =>
    if next_ip < below_lo then
      (find_biggest_subnet next_ip default_cidr_mask subnet_cidr).bind fun next_mask =>
      let next_subnet : Ipv4 := ⟨next_ip, next_mask⟩
      (any_option (fun vnet => vnet.contains next_ip) s.vnet_cidr).bind fun gap_in_vnet =>
      next_subnet.broadcast.bind fun bc =>
      (num_az_hosts next_mask).bind fun hosts =>
      let row : SubnetPrintRow := {
        j := 0
        gap := "-gap-"
        subnet_cidr := some next_subnet
        broadcast := ipv4_addr_repr bc.addr
        az_hosts := hosts
        subnet_name := "None"
        subscription_name := if gap_in_vnet then s.subscription_name else "None"
        vnet_cidr := if gap_in_vnet then format_vnet_cidr s.vnet_cidr else "None"
        vnet_name := if gap_in_vnet then s.vnet_name else "None"
        location := "None"
        nsg := "Unused_nsg"
        dns := "Unused_dns"
        subscription_id := if gap_in_vnet then s.subscription_id else "None"
        ip_configurations_count := 0 }
      ((next_subnet_ipv4 next_subnet none).bind Ipv4.lo).bind fun new_next =>
      (gap_rows_loop s subnet_cidr default_cidr_mask fuel new_next below_lo).map
        fun final_state => (final_state.1, row :: final_state.2)
    else some (next_ip, [])

/-- Body of `process_subnet_row` after the entry `assert!` has passed,
for a record with a real `subnet_cidr`. -/
def process_subnet_row_core (s : Subnet) (i : Nat) (next_ip : Nat)
    (subnet_cidr : Ipv4) (default_cidr_mask : Nat) :
    Option (Nat × Ipv4 × List SubnetPrintRow) :=
  subnet_cidr.lo.bind fun below_lo =>
  (gap_rows_loop s subnet_cidr default_cidr_mask (below_lo - next_ip) next_ip
      below_lo).bind fun loop_state =>
  (match s.vnet_cidr with
   | [] => none
   | v0 :: _ => some v0).bind fun vnet_cidr_head =>
  subnet_cidr.broadcast.bind fun bc =>
  (num_az_hosts subnet_cidr.mask).bind fun hosts =>
  let real_row : SubnetPrintRow := {
    j := i + 1
    gap := s.gap.getD ("Sub" ++ toString s.src_index)
    subnet_cidr := some subnet_cidr
    broadcast := ipv4_addr_repr bc.addr
    az_hosts := hosts
    subnet_name := s.subnet_name
    subscription_name := s.subscription_name
    vnet_cidr := format_vnet_cidr s.vnet_cidr
    vnet_name := s.vnet_name
    location := s.location
    nsg := extract_nsg_name s.nsg
    dns := format_dns_servers s.dns_servers
    subscription_id := s.subscription_id
    ip_configurations_count := s.ip_configurations_count.getD 0 }
  ((next_subnet_ipv4 subnet_cidr none).bind Ipv4.lo).bind fun new_next =>
  some (new_next, vnet_cidr_head, loop_state.2 ++ [real_row])

/-- `process_subnet_row` from `src/processing/gap_finder.rs`.  A record with no
CIDR passes through as one degenerate row; otherwise the entry
`assert!(next_ip <= subnet_cidr.addr)` aborts (`none`) when violated, and the
body emits the gap rows followed by the real subnet's row. -/
def process_subnet_row (s : Subnet) (i : Nat) (next_ip : Nat)
    (vnet_previous_cidr : Ipv4) (default_cidr_mask : Nat)
    (_skip_subnet_smaller_than : Nat) : Option (Nat × Ipv4 × List SubnetPrintRow) :=
  match s.subnet_cidr with
  | none => some (next_ip, vnet_previous_cidr,
      [create_row_from_subnet s i "None" none "none" 0])
  | some subnet_cidr =>
    if next_ip ≤ subnet_cidr.addr then
      process_subnet_row_core s i next_ip subnet_cidr default_cidr_mask
    else none

/-- `SKIP_SUBNET_SMALLER_THAN` (`10.17.255.255`) from `src/output/csv.rs`. -/
def SKIP_SUBNET_SMALLER_THAN : Nat := 10 * 2 ^ 24 + 17 * 2 ^ 16 + 255 * 2 ^ 8 + 255

/-- The driver loop of `subnet_print` from `src/output/csv.rs`: thread
`next_ip` / `vnet_previous_cidr` through `process_subnet_row` over the sorted
records, concatenating the emitted rows. -/
def subnet_rows_fold : List Subnet → Nat → Nat → Ipv4 → Nat →
    Option (Nat × Ipv4 × List SubnetPrintRow)
  | [], _, next_ip, vp, _ => some (next_ip, vp, [])
  | s :: rest, i, next_ip, vp, dm =>
    (process_subnet_row s i next_ip vp dm SKIP_SUBNET_SMALLER_THAN).bind
      fun st =>
    (subnet_rows_fold rest (i + 1) st.1 st.2.1 dm).map
      fun st2 => (st2.1, st2.2.1, st.2.2 ++ st2.2.2)

/-! ## De-duplication (src/processing/dedup.rs)

`Vec::sort_by_key` is a stable sort by `(subnet_cidr, subscription_id)`;
the derived `Ord` on `Ipv4` is lexicographic on `(addr, mask)`, `Option`
sorts `None` first, strings byte-lexicographically (codepoint order). -/

/-- The `Data` struct from `src/azure/graph.rs`. -/
structure Data where
  data : List Subnet
  skip_token : Option String
  total_records : Option Nat
  count : Int
deriving DecidableEq, Repr

/-- Derived `Ord for Ipv4`: lexicographic on `(addr, mask)`, strictly. -/
def ipv4_lt (a b : Ipv4) : Bool :=
  decide (a.addr < b.addr) || (decide (a.addr = b.addr) && decide (a.mask < b.mask))

/-- `Ord for Option<Ipv4>`: `None` sorts before `Some`. -/
def opt_cidr_lt : Option Ipv4 → Option Ipv4 → Bool
  | none, none => false
  | none, some _ => true
  | some _, none => false
  | some a, some b => ipv4_lt a b

/-- Byte-lexicographic (codepoint) string comparison, as Rust `Ord for String`. -/
def strLe (a b : String) : Bool := decide (a ≤ b)

/-- The sort/dedup key of `de_duplicate_subnets`. -/
def dedup_key (s : Subnet) : Option Ipv4 × String := (s.subnet_cidr, s.subscription_id)

/-- Non-strict lexicographic order on the dedup key. -/
def key_le (k1 k2 : Option Ipv4 × String) : Bool :=
  opt_cidr_lt k1.1 k2.1 || (decide (k1.1 = k2.1) && strLe k1.2 k2.2)

/-- The comparison handed to the stable sort. -/
def dedup_key_le (a b : Subnet) : Bool := key_le (dedup_key a) (dedup_key b)

/-- `default_subnet_names_to_ignore` from `src/processing/dedup.rs`. -/
def default_subnet_names_to_ignore : List String :=
  ["default", "jenkinsarm-snet", "pkrsn1ooslfxj77", "pkrsn8jufz9plf6",
   "pkrsnsnajtq3h3i", "pkrsnxocivqofa6", "orggmcmg", "restore-vm-subnet"]

/-- The `retain` predicate of `de_duplicate_subnets`: not on the ignore list
and with a configured CIDR. -/
def keep_subnet (ignore : List String) (s : Subnet) : Bool :=
  !(ignore.contains s.subnet_name) && s.subnet_cidr.isSome

/-- `Vec::dedup_by_key` tail worker: drop an element whose key equals the key
of the previously kept element. -/
def dedup_by_key_aux (k : Option Ipv4 × String) : List Subnet → List Subnet
  | [] => []
  | s :: rest =>
    if dedup_key s = k then dedup_by_key_aux k rest
    else s :: dedup_by_key_aux (dedup_key s) rest

/-- `Vec::dedup_by_key`: keep the first element of every run of equal keys. -/
def dedup_by_key : List Subnet → List Subnet
  | [] => []
  | s :: rest => s :: dedup_by_key_aux (dedup_key s) rest

/-- `de_duplicate_subnets` from `src/processing/dedup.rs` (the `Result` is
always `Ok`, hence always `some`). -/
def de_duplicate_subnets (data : Data) (subnet_names_to_ignore : Option (List String)) :
    Option Data :=
  let ignore := subnet_names_to_ignore.getD default_subnet_names_to_ignore
  let kept := data.data.filter (keep_subnet ignore)
  let sorted := kept.mergeSort dedup_key_le
  some { data with data := dedup_by_key sorted }

/-! ### Order facts for the dedup key -/

/-- The sorted list fed to `dedup_by_key` inside `de_duplicate_subnets`. -/
def dedup_sorted (data : Data) (ignore : List String) : List Subnet :=
  (data.data.filter (keep_subnet ignore)).mergeSort dedup_key_le

/-- `10.1.1.0/24`. -/
def dedup_sample_cidr : Ipv4 := ⟨10 * 2 ^ 24 + 2 ^ 16 + 2 ^ 8, 24⟩

def dedup_sample_a1 : Subnet :=
  { defaultSubnet with
      subnet_name := "app-a"
      subnet_cidr := some dedup_sample_cidr
      subscription_id := "sub-1" }

def dedup_sample_a2 : Subnet :=
  { defaultSubnet with
      subnet_name := "app-b"
      subnet_cidr := some dedup_sample_cidr
      subscription_id := "sub-2" }

def dedup_sample_b2 : Subnet :=
  { defaultSubnet with
      subnet_name := "app-c"
      subnet_cidr := some dedup_sample_cidr
      subscription_id := "sub-1" }

/-- Two records with the same CIDR in different subscriptions. -/
def dedup_data_diff_subs : Data := ⟨[dedup_sample_a1, dedup_sample_a2], none, none, 2⟩

/-- Two records with identical CIDR and identical subscription. -/
def dedup_data_same_key : Data := ⟨[dedup_sample_a1, dedup_sample_b2], none, none, 2⟩

/-- A record whose CIDR field carries an unaligned address (`0.0.0.5/24`):
its network address (`0.0.0.0`) is strictly below the raw address. -/
def unaligned_subnet : Subnet :=
  { defaultSubnet with
      subnet_name := "unaligned"
      subnet_cidr := some ⟨5, 24⟩
      vnet_cidr := [⟨0, 8⟩] }

/-- A record whose single VNet CIDR (`1.0.0.0/24`) does not contain the gap
in front of its subnet `0.0.0.16/28`. -/
def gap_sample_out : Subnet :=
  { defaultSubnet with
      subnet_cidr := some ⟨16, 28⟩
      vnet_cidr := [⟨2 ^ 24, 24⟩] }

/-- The gap row `process_subnet_row` emits for `gap_sample_out` from `0.0.0.0`. -/
def gap_out_row : SubnetPrintRow where
  j := 0
  gap := "-gap-"
  subnet_cidr := some ⟨0, 28⟩
  broadcast := "0.0.0.15"
  az_hosts := 11
  subnet_name := "None"
  subscription_name := "None"
  vnet_cidr := "None"
  vnet_name := "None"
  location := "None"
  nsg := "Unused_nsg"
  dns := "Unused_dns"
  subscription_id := "None"
  ip_configurations_count := 0

/-- The real-subnet row following `gap_out_row`. -/
def gap_out_real_row : SubnetPrintRow where
  j := 2
  gap := "blank"
  subnet_cidr := some ⟨16, 28⟩
  broadcast := "0.0.0.31"
  az_hosts := 11
  subnet_name := ""
  subscription_name := "blank"
  vnet_cidr := "1.0.0.0/24"
  vnet_name := "blank"
  location := "blank"
  nsg := "None"
  dns := "None"
  subscription_id := "blank"
  ip_configurations_count := 0

/-- The full result of `process_subnet_row` on `gap_sample_out`. -/
def gap_sample_out_st : Nat × Ipv4 × List SubnetPrintRow :=
  (32, ⟨2 ^ 24, 24⟩, [gap_out_row, gap_out_real_row])

/-- `tiles_from start blocks stop`: the closed address ranges in `blocks`
cover `[start, stop)` exactly — each block starts where the previous one
ended, with no gap and no overlap. -/
def tiles_from : Nat → List (Nat × Nat) → Nat → Prop
  | start, [], stop => start = stop
  | start, (a, b) :: rest, stop => a = start ∧ a ≤ b ∧ tiles_from (b + 1) rest stop

/-- The `[network_address, broadcast_address]` ranges of the rows that carry a
CIDR (gap rows and real subnet rows). -/
def row_blocks (rows : List SubnetPrintRow) : List (Nat × Nat) :=
  rows.filterMap (fun r => r.subnet_cidr.map (fun c => (loAddr c, hiAddr c)))

/-- Non-strict derived `Ord` on `Ipv4` (lexicographic `(addr, mask)`). -/
def ipv4_le (a b : Ipv4) : Bool := ipv4_lt a b || decide (a = b)

/-- A single sorted, non-overlapping `/30` record; its usable Azure host
count is an error, so the whole row emission aborts. -/
def tiny_subnet : Subnet :=
  { defaultSubnet with
      subnet_cidr := some ⟨0, 30⟩
      vnet_cidr := [⟨0, 24⟩] }

/-- `0.0.0.16/28` record for the concrete tiling scenario. -/
def fold_w1 : Subnet :=
  { defaultSubnet with subnet_cidr := some ⟨16, 28⟩, vnet_cidr := [⟨0, 16⟩] }

/-- `0.0.1.0/24` record for the concrete tiling scenario. -/
def fold_w2 : Subnet :=
  { defaultSubnet with subnet_cidr := some ⟨256, 24⟩, vnet_cidr := [⟨0, 16⟩] }

/-- Accumulating decimal parse for `u8::from_str`: checked multiply/add at
each digit, error on a non-digit and on overflow past 255. -/
def parse_u8_digits : Nat → List Char → Option Nat
  | acc, [] => some acc
  | acc, c :: cs =>
    if c.isDigit then
      let acc2 := acc * 10 + (c.toNat - 48)
      if acc2 > 255 then none else parse_u8_digits acc2 cs
    else none

/-- `u8::from_str`: optional leading `+`, then one or more digits, value at
most 255. -/
def u8_from_str : List Char → Option Nat
  | [] => none
  | c :: rest =>
    if c = '+' then
      match rest with
      | [] => none
      | _ :: _ => parse_u8_digits 0 rest
    else parse_u8_digits 0 (c :: rest)

/-- Decimal value of a digit string. -/
def octet_value (cs : List Char) : Nat :=
  cs.foldl (fun acc c => acc * 10 + (c.toNat - 48)) 0

/-- One octet of `Ipv4Addr::from_str`: one to three digits, no leading zero
except for `"0"` itself, value at most 255. -/
def parse_octet : List Char → Option Nat
  | [] => none
  | c :: cs =>
    if ¬ (c :: cs).all Char.isDigit then none
    else if c = '0' ∧ cs ≠ [] then none
    else if (c :: cs).length > 3 then none
    else if octet_value (c :: cs) > 255 then none
    else some (octet_value (c :: cs))

/-- `Ipv4Addr::from_str`: a dotted quad of octets, big-endian. -/
def ipv4_addr_from_str (cs : List Char) : Option Nat :=
  match split_char '.' cs with
  | [a, b, c, d] =>
    (parse_octet a).bind fun va =>
    (parse_octet b).bind fun vb =>
    (parse_octet c).bind fun vc =>
    (parse_octet d).map fun vd =>
      ((va * 2 ^ 8 + vb) * 2 ^ 8 + vc) * 2 ^ 8 + vd
  | _ => none

/-- Rust `str::trim`: whitespace stripped from both ends. -/
def trim_chars (cs : List Char) : List Char :=
  ((cs.dropWhile Char.isWhitespace).reverse.dropWhile Char.isWhitespace).reverse

/-- The serde `Deserialize for Ipv4` from `src/models/ipv4.rs`: split on `/`
into exactly two parts, parse the address and the mask (`u8`), with no upper
bound on the mask. -/
def deserialize_ipv4 (cs : List Char) : Option Ipv4 :=
  match split_char '/' cs with
  | [a, m] =>
    (ipv4_addr_from_str a).bind fun addr =>
    (u8_from_str m).map fun mask => ⟨addr, mask⟩
  | _ => none

/-- `Ipv4::new` from `src/models/ipv4.rs`: trim, split on `/`, parse both
parts, and reject a mask above `MAX_LENGTH`. -/
def ipv4_new (s : List Char) : Option Ipv4 :=
  let cs := trim_chars s
  match split_char '/' cs with
  | [a, m] =>
    (ipv4_addr_from_str a).bind fun addr =>
    (u8_from_str m).bind fun mask =>
    if mask > MAX_LENGTH then none else some ⟨addr, mask⟩
  | _ => none

/-- The `VnetInfo` struct from `src/processing/overlap.rs`. -/
structure VnetInfo where
  vnet_name : String
  vnet_cidr : List Ipv4
  subscription_id : String
  subscription_name : String
  location : String
  subnet_count : Nat
deriving DecidableEq, Repr

/-- The `OverlapConflict` struct from `src/processing/overlap.rs`. -/
structure OverlapConflict where
  cidr : Ipv4
  vnets : List VnetInfo
deriving DecidableEq, Repr

/-- The VNet identity key `(vnet_name, subscription_id)`. -/
def vnet_key (s : Subnet) : String × String := (s.vnet_name, s.subscription_id)

/-- The `VnetInfo` recorded on first sight of an identity (`or_insert_with`). -/
def vnet_info_of (s : Subnet) : VnetInfo where
  vnet_name := s.vnet_name
  vnet_cidr := s.vnet_cidr
  subscription_id := s.subscription_id
  subscription_name := s.subscription_name
  location := s.location
  subnet_count := 1

/-- The identity carried by a `VnetInfo`. -/
def info_identity (v : VnetInfo) : String × String := (v.vnet_name, v.subscription_id)

/-- `seen_vnets.entry(key).and_modify(count += 1).or_insert_with(info)` on an
insertion-ordered association list. -/
def seen_insert : List ((String × String) × VnetInfo) → Subnet →
    List ((String × String) × VnetInfo)
  | [], s => [(vnet_key s, vnet_info_of s)]
  | e :: rest, s =>
    if e.1 = vnet_key s then
      (e.1, { e.2 with subnet_count := e.2.subnet_count + 1 }) :: rest
    else e :: seen_insert rest s

/-- The unique-VNets map of `find_overlapping_vnets`. -/
def seen_vnets (records : List Subnet) : List ((String × String) × VnetInfo) :=
  records.foldl seen_insert []

/-- `cidr_to_vnets.entry(cidr).or_default().push(info)` on an
insertion-ordered association list. -/
def cidr_insert : List (Ipv4 × List VnetInfo) → Ipv4 → VnetInfo →
    List (Ipv4 × List VnetInfo)
  | [], c, info => [(c, [info])]
  | e :: rest, c, info =>
    if e.1 = c then (e.1, e.2 ++ [info]) :: rest
    else e :: cidr_insert rest c info

/-- The CIDR-to-claimants map of `find_overlapping_vnets`. -/
def cidr_to_vnets (records : List Subnet) : List (Ipv4 × List VnetInfo) :=
  ((seen_vnets records).map Prod.snd).foldl
    (fun acc info => info.vnet_cidr.foldl (fun a c => cidr_insert a c info) acc) []

/-- The comparison used by the final `sort_by_key(|c| c.cidr)`. -/
def overlap_le (a b : OverlapConflict) : Bool := ipv4_le a.cidr b.cidr

/-- `find_overlapping_vnets` from `src/processing/overlap.rs`: CIDRs claimed
by more than one entry, sorted ascending by CIDR. -/
def find_overlapping_vnets (data : Data) : List OverlapConflict :=
  (((cidr_to_vnets data.data).filter (fun e => e.2.length > 1)).map
    (fun e => OverlapConflict.mk e.1 e.2)).mergeSort overlap_le

/-! ### Spec-side description of the overlap computation -/

/-- First occurrences of a key list, keeping first-seen order, skipping keys
already in `seen`. -/
def first_dedup_aux (seen : List (String × String)) :
    List (String × String) → List (String × String)
  | [] => []
  | k :: ks =>
    if k ∈ seen then first_dedup_aux seen ks
    else k :: first_dedup_aux (k :: seen) ks

/-- The distinct VNet identities of a record list, in first-seen order. -/
def vnet_identities (records : List Subnet) : List (String × String) :=
  first_dedup_aux [] (records.map vnet_key)

/-- The first record carrying a given identity. -/
def first_record_with (records : List Subnet) (k : String × String) : Option Subnet :=
  records.find? (fun s => decide (vnet_key s = k))

/-- The identities advertising a CIDR: those whose (first) record lists it
among its VNet CIDRs.  This is the spec's notion of "distinct `(vnet_name,
subscription_id)` identities advertising `c` via `vnet_cidr`". -/
def advertisers (records : List Subnet) (c : Ipv4) : List (String × String) :=
  (vnet_identities records).filter fun k =>
    match first_record_with records k with
    | some s => decide (c ∈ s.vnet_cidr)
    | none => false

/-- Association-list lookup in the CIDR map. -/
def cidr_lookup : List (Ipv4 × List VnetInfo) → Ipv4 → List VnetInfo
  | [], _ => []
  | e :: rest, c => if e.1 = c then e.2 else cidr_lookup rest c

/-! ### Invariants of `seen_vnets` -/

/-- A record advertising the same VNet CIDR twice in its `vnet_cidr` list. -/
def dup_cidr_subnet : Subnet :=
  { defaultSubnet with
      vnet_name := "vnet-dup"
      subscription_id := "sub-1"
      vnet_cidr := [⟨10 * 2 ^ 24, 16⟩, ⟨10 * 2 ^ 24, 16⟩] }

def dup_cidr_data : Data := ⟨[dup_cidr_subnet], none, none, 1⟩

/-- Two VNets in different subscriptions both advertising `10.0.0.0/16`. -/
def overlap_r1 : Subnet :=
  { defaultSubnet with
      vnet_name := "vnet-a"
      subscription_id := "sub-1"
      vnet_cidr := [⟨10 * 2 ^ 24, 16⟩] }

def overlap_r2 : Subnet :=
  { defaultSubnet with
      vnet_name := "vnet-b"
      subscription_id := "sub-2"
      vnet_cidr := [⟨10 * 2 ^ 24, 16⟩] }

def overlap_data : Data := ⟨[overlap_r1, overlap_r2], none, none, 2⟩

theorem get_cidr_mask_eq {len : Nat} (h : len ≤ 32) :
    get_cidr_mask len = some (2 ^ 32 - 2 ^ (32 - len)) := by
  have hbpos : (0:Nat) < 2 ^ (32 - len) := Nat.two_pow_pos _
  have hble : (2:Nat) ^ (32 - len) ≤ 2 ^ 32 :=
    Nat.pow_le_pow_right (by norm_num) (by omega)
  have hpow : (2:Nat) ^ len * 2 ^ (32 - len) = 2 ^ 32 := by
    rw [← pow_add]
    congr 1
    omega
  have hmul : (2:Nat) ^ (32 - len) * (2 ^ len - 1) = 2 ^ 32 - 2 ^ (32 - len) := by
    rw [Nat.mul_comm, tsub_mul, one_mul, hpow]
  simp only [get_cidr_mask, MAX_LENGTH]
  rw [if_neg (by omega)]
  congr 1
  rw [Nat.shiftLeft_eq, Nat.shiftRight_eq_div_pow]
  have h1 : 2 ^ 32 - 1 = 2 ^ (32 - len) * (2 ^ len - 1) + (2 ^ (32 - len) - 1) := by
    rw [hmul]
    omega
  rw [h1, Nat.mul_add_div hbpos,
    Nat.div_eq_of_lt (show 2 ^ (32 - len) - 1 < 2 ^ (32 - len) by omega),
    Nat.add_zero, tsub_mul, one_mul, hpow]

theorem cut_addr_eq {addr len : Nat} (h : len ≤ 32) :
    cut_addr addr len = some (addr / 2 ^ (32 - len) * 2 ^ (32 - len)) := by
  simp only [cut_addr, MAX_LENGTH]
  rw [if_neg (by omega)]
  rw [Nat.shiftLeft_eq, Nat.shiftRight_eq_div_pow]

/-- `addr & cidr_mask(len)` clears the low `32-len` bits: agreement of the
bitwise computation with the arithmetic normal form. -/
theorem land_mask_eq {addr r : Nat} (haddr : addr < 2 ^ 32) (hr : r ≤ 32) :
    addr &&& (2 ^ 32 - 2 ^ r) = addr / 2 ^ r * 2 ^ r := by
  apply Nat.eq_of_testBit_eq
  intro i
  have hmask : (2:Nat) ^ 32 - 2 ^ r = 2 ^ r * (2 ^ (32 - r) - 1) := by
    rw [Nat.mul_comm, tsub_mul, one_mul, ← pow_add]
    congr 2
    omega
  have hdiv : addr / 2 ^ r * 2 ^ r = (addr >>> r) <<< r := by
    rw [Nat.shiftLeft_eq, Nat.shiftRight_eq_div_pow]
  rw [hmask, hdiv, Nat.testBit_land, Nat.testBit_mul_pow_two,
    Nat.testBit_shiftLeft, Nat.testBit_shiftRight]
  by_cases hir : i < r
  · simp [show ¬ i ≥ r by omega]
  · have harr : r + (i - r) = i := by omega
    simp only [Nat.testBit_two_pow_sub_one, harr, show i ≥ r by omega, decide_True,
      Bool.true_and]
    by_cases hi32 : i < 32
    · simp [show i - r < 32 - r by omega]
    · have hbf : addr.testBit i = false :=
        Nat.testBit_lt_two_pow
          (lt_of_lt_of_le haddr (Nat.pow_le_pow_right (by norm_num) (by omega)))
      simp [hbf, show ¬ (i - r < 32 - r) by omega]

/-- ORing a `2^r`-aligned value with `2^r - 1` is addition. -/
theorem lor_low_bits_eq {q r : Nat} :
    q * 2 ^ r ||| (2 ^ r - 1) = q * 2 ^ r + (2 ^ r - 1) := by
  apply Nat.eq_of_testBit_eq
  intro i
  have hlt : (2:Nat) ^ r - 1 < 2 ^ r := by
    have := Nat.two_pow_pos r
    omega
  rw [Nat.testBit_lor, Nat.mul_comm q (2 ^ r), Nat.testBit_mul_pow_two_add _ hlt,
    Nat.testBit_mul_pow_two]
  by_cases hir : i < r
  · simp [hir, show ¬ i ≥ r by omega]
  · simp [hir, show i ≥ r by omega]

theorem broadcast_addr_eq {addr len : Nat} (haddr : addr < 2 ^ 32) (h : len ≤ 32) :
    broadcast_addr addr len = some (hiAddr ⟨addr, len⟩) := by
  have hr : 32 - len ≤ 32 := Nat.sub_le _ _
  have hle : (2:Nat) ^ (32 - len) ≤ 2 ^ 32 := Nat.pow_le_pow_right (by norm_num) hr
  simp only [broadcast_addr, MAX_LENGTH]
  rw [if_neg (by omega), get_cidr_mask_eq h]
  simp only [Option.map_some']
  congr 1
  have hnot : u32_not (2 ^ 32 - 2 ^ (32 - len)) = 2 ^ (32 - len) - 1 := by
    simp only [u32_not]
    omega
  rw [hnot, land_mask_eq haddr hr, lor_low_bits_eq]
  rfl

theorem lo_eq {c : Ipv4} (h : c.mask ≤ 32) : c.lo = some (loAddr c) := by
  simp [Ipv4.lo, cut_addr_eq h, loAddr]

theorem hi_eq {c : Ipv4} (haddr : c.addr < 2 ^ 32) (h : c.mask ≤ 32) :
    c.hi = some (hiAddr c) := by
  simpa [Ipv4.hi] using broadcast_addr_eq haddr h

theorem loAddr_le_addr (c : Ipv4) : loAddr c ≤ c.addr :=
  Nat.div_mul_le_self _ _

theorem addr_le_hiAddr (c : Ipv4) : c.addr ≤ hiAddr c := by
  have hpos : (0:Nat) < 2 ^ (32 - c.mask) := Nat.two_pow_pos _
  have hmod : c.addr % 2 ^ (32 - c.mask) < 2 ^ (32 - c.mask) := Nat.mod_lt _ hpos
  have hdm := Nat.div_add_mod c.addr (2 ^ (32 - c.mask))
  have hcomm : c.addr / 2 ^ (32 - c.mask) * 2 ^ (32 - c.mask)
      = 2 ^ (32 - c.mask) * (c.addr / 2 ^ (32 - c.mask)) := Nat.mul_comm _ _
  simp only [hiAddr, loAddr]
  rw [hcomm]
  omega

theorem loAddr_le_hiAddr (c : Ipv4) : loAddr c ≤ hiAddr c :=
  Nat.le_add_right _ _

theorem hiAddr_lt {c : Ipv4} (haddr : c.addr < 2 ^ 32) (h : c.mask ≤ 32) :
    hiAddr c < 2 ^ 32 := by
  have hpos : (0:Nat) < 2 ^ (32 - c.mask) := Nat.two_pow_pos _
  rcases pow_dvd_pow 2 (show 32 - c.mask ≤ 32 by omega) with ⟨m, hm⟩
  have hq : c.addr / 2 ^ (32 - c.mask) * 2 ^ (32 - c.mask) < m * 2 ^ (32 - c.mask) := by
    calc c.addr / 2 ^ (32 - c.mask) * 2 ^ (32 - c.mask) ≤ c.addr :=
          Nat.div_mul_le_self _ _
      _ < 2 ^ 32 := haddr
      _ = m * 2 ^ (32 - c.mask) := by rw [hm]; ring
  have hqm : c.addr / 2 ^ (32 - c.mask) < m := Nat.lt_of_mul_lt_mul_right hq
  have hfin : (c.addr / 2 ^ (32 - c.mask) + 1) * 2 ^ (32 - c.mask)
      ≤ m * 2 ^ (32 - c.mask) := Nat.mul_le_mul_right _ (by omega)
  have hsucc : (c.addr / 2 ^ (32 - c.mask) + 1) * 2 ^ (32 - c.mask)
      = c.addr / 2 ^ (32 - c.mask) * 2 ^ (32 - c.mask) + 2 ^ (32 - c.mask) := by ring
  have h32 : (2:Nat) ^ 32 = m * 2 ^ (32 - c.mask) := by rw [hm]; ring
  simp only [hiAddr, loAddr]
  omega

/-- Divisibility below the trailing-zero count. -/
theorem pow_dvd_of_le_trailing_zeros_aux :
    ∀ (fuel n j : Nat), j ≤ trailing_zeros_aux fuel n → 2 ^ j ∣ n := by
  intro fuel
  induction fuel with
  | zero =>
    intro n j h
    simp only [trailing_zeros_aux] at h
    interval_cases j
    simp
  | succ fuel ih =>
    intro n j h
    simp only [trailing_zeros_aux] at h
    by_cases hodd : n % 2 = 1
    · rw [if_pos hodd] at h
      interval_cases j
      simp
    · rw [if_neg hodd] at h
      match j, h with
      | 0, _ => simp
      | j + 1, h =>
        have hj : j ≤ trailing_zeros_aux fuel (n / 2) := by omega
        have hdvd := ih (n / 2) j hj
        have heven : n % 2 = 0 := by omega
        have hn : n = 2 * (n / 2) := by omega
        rcases hdvd with ⟨k, hk⟩
        exact ⟨k, by rw [hn, hk]; ring⟩

/-- If `m ≥ lo_mask ip` then `ip` is aligned at mask `m`:
its low `32 - m` bits vanish. -/
theorem aligned_of_lo_mask_le {ip m : Nat} (h : lo_mask ip ≤ m) :
    ip % 2 ^ (32 - m) = 0 := by
  have hdvd : 2 ^ (32 - m) ∣ ip := by
    apply pow_dvd_of_le_trailing_zeros_aux 32 ip
    simp only [lo_mask, u32_trailing_zeros] at h ⊢
    omega
  exact Nat.mod_eq_zero_of_dvd hdvd

theorem lo_mask_le_32 (ip : Nat) : lo_mask ip ≤ 32 := Nat.sub_le _ _

/-- An aligned address is its own network address. -/
theorem loAddr_of_aligned {a m : Nat} (hal : a % 2 ^ (32 - m) = 0) :
    loAddr ⟨a, m⟩ = a := by
  simp only [loAddr]
  exact Nat.div_mul_cancel (Nat.dvd_of_mod_eq_zero hal)

theorem loAddr_mod (c : Ipv4) : loAddr c % 2 ^ (32 - c.mask) = 0 := by
  simp only [loAddr]
  exact Nat.mul_mod_left _ _

/-- With `addr < 2^32` a block never reaches past the top of the address space. -/
theorem loAddr_add_size_le {c : Ipv4} (haddr : c.addr < 2 ^ 32) (h : c.mask ≤ 32) :
    loAddr c + 2 ^ (32 - c.mask) ≤ 2 ^ 32 := by
  rcases pow_dvd_pow 2 (show 32 - c.mask ≤ 32 by omega) with ⟨m, hm⟩
  have hq : c.addr / 2 ^ (32 - c.mask) * 2 ^ (32 - c.mask) < m * 2 ^ (32 - c.mask) := by
    calc c.addr / 2 ^ (32 - c.mask) * 2 ^ (32 - c.mask) ≤ c.addr :=
          Nat.div_mul_le_self _ _
      _ < 2 ^ 32 := haddr
      _ = m * 2 ^ (32 - c.mask) := by rw [hm]; ring
  have hqm : c.addr / 2 ^ (32 - c.mask) < m := Nat.lt_of_mul_lt_mul_right hq
  have hfin : (c.addr / 2 ^ (32 - c.mask) + 1) * 2 ^ (32 - c.mask)
      ≤ m * 2 ^ (32 - c.mask) := Nat.mul_le_mul_right _ (by omega)
  have hsucc : (c.addr / 2 ^ (32 - c.mask) + 1) * 2 ^ (32 - c.mask)
      = c.addr / 2 ^ (32 - c.mask) * 2 ^ (32 - c.mask) + 2 ^ (32 - c.mask) := by ring
  have h32 : (2:Nat) ^ 32 = m * 2 ^ (32 - c.mask) := by rw [hm]; ring
  simp only [loAddr]
  omega

/-- `ip_after_subnet` in arithmetic normal form: the network address plus the
block size, `none` exactly on `u32` overflow. -/
theorem ip_after_subnet_eq {addr cidr : Nat} (haddr : addr < 2 ^ 32) (h : cidr ≤ 32) :
    ip_after_subnet addr cidr =
      if loAddr ⟨addr, cidr⟩ + 2 ^ (32 - cidr) = 2 ^ 32 then none
      else some (loAddr ⟨addr, cidr⟩ + 2 ^ (32 - cidr)) := by
  have hle := loAddr_add_size_le (c := ⟨addr, cidr⟩) haddr h
  simp only [ip_after_subnet, MAX_LENGTH]
  rw [if_neg (by omega), get_cidr_mask_eq h]
  simp only [Option.bind_some, Option.some_bind]
  rw [land_mask_eq haddr (by omega), Nat.shiftLeft_eq, one_mul]
  by_cases hover : loAddr ⟨addr, cidr⟩ + 2 ^ (32 - cidr) = 2 ^ 32
  · rw [if_pos hover]
    rw [if_pos (by simp only [loAddr] at hover ⊢; omega)]
  · rw [if_neg hover]
    rw [if_neg (by simp only [loAddr] at hover hle ⊢; omega)]
    rfl

/-- Relation between the two normal forms: broadcast is network plus size minus one. -/
theorem hiAddr_eq_loAddr_add (c : Ipv4) :
    hiAddr c = loAddr c + (2 ^ (32 - c.mask) - 1) := rfl

/-! ## `find_biggest_subnet` (src/processing/gap_finder.rs)

The source loop increments `next_mask` while the candidate block's broadcast
reaches into `below_subnet_cidr`; `hi()` panics when the mask passes 32, which
the embedding models by returning `none`.  The fuel 34 is enough for every
reachable run: the mask starts at most at 32 and the panic at 33 is itself
detected within the fuel. -/

/-- Success characterisation of the search loop: if some mask in
`[next_mask, next_mask + fuel)` (staying ≤ 32) fits below `below_lo`, the loop
returns the least fitting mask at or above `next_mask`. -/
theorem find_biggest_loop_spec {start_ip below_lo : Nat}
    (hip : start_ip < 2 ^ 32) (hbelow : start_ip < below_lo) :
    ∀ fuel next_mask, next_mask ≤ 32 → 33 - next_mask ≤ fuel →
      ∃ m, find_biggest_loop start_ip below_lo next_mask fuel = some m ∧
        next_mask ≤ m ∧ m ≤ 32 ∧ hiAddr ⟨start_ip, m⟩ < below_lo ∧
        ∀ k, next_mask ≤ k → k < m → ¬ hiAddr ⟨start_ip, k⟩ < below_lo := by
  intro fuel
  induction fuel with
  | zero => intro next_mask h32 hfuel; omega
  | succ fuel ih =>
    intro next_mask h32 hfuel
    have hbc := @broadcast_addr_eq start_ip next_mask hip h32
    by_cases hfit : hiAddr ⟨start_ip, next_mask⟩ < below_lo
    · refine ⟨next_mask, ?_, le_refl _, h32, hfit, by omega⟩
      simp only [find_biggest_loop, hbc]
      rw [if_neg (by omega)]
    · have h32' : next_mask < 32 := by
        rcases Nat.lt_or_ge next_mask 32 with hlt | hge
        · exact hlt
        · exfalso
          have hm32 : next_mask = 32 := by omega
          apply hfit
          have : hiAddr ⟨start_ip, next_mask⟩ = start_ip := by
            simp only [hiAddr, loAddr, hm32]
            norm_num
          omega
      rcases ih (next_mask + 1) (by omega) (by omega) with
        ⟨m, hloop, hge, hle32, hfit', hmin⟩
      refine ⟨m, ?_, by omega, hle32, hfit', ?_⟩
      · simp only [find_biggest_loop, hbc]
        rw [if_pos (by omega)]
        exact hloop
      · intro k hk1 hk2
        rcases Nat.eq_or_lt_of_le hk1 with heq | hlt
        · rw [← heq]; exact hfit
        · exact hmin k (by omega) hk2

/-- Full success characterisation of `find_biggest_subnet`: under the
invariants of its callers it returns the least mask at or above
`max start_mask (lo_mask start_ip)` whose block fits strictly below the next
subnet's network address. -/
theorem find_biggest_subnet_spec {start_ip start_mask : Nat} {below : Ipv4}
    (hip : start_ip < 2 ^ 32) (hsm : start_mask ≤ 32) (hbm : below.mask ≤ 32)
    (hbelow : start_ip < loAddr below) :
    ∃ m, find_biggest_subnet start_ip start_mask below = some m ∧
      max start_mask (lo_mask start_ip) ≤ m ∧ m ≤ 32 ∧
      hiAddr ⟨start_ip, m⟩ < loAddr below ∧
      ∀ k, max start_mask (lo_mask start_ip) ≤ k → k < m →
        ¬ hiAddr ⟨start_ip, k⟩ < loAddr below := by
  have hstart : max start_mask (lo_mask start_ip) ≤ 32 :=
    max_le hsm (lo_mask_le_32 _)
  rcases find_biggest_loop_spec hip hbelow 34 (max start_mask (lo_mask start_ip))
      hstart (by omega) with ⟨m, hloop, hge, hle32, hfit, hmin⟩
  refine ⟨m, ?_, hge, hle32, hfit, hmin⟩
  simp only [find_biggest_subnet]
  rw [if_neg (by omega), lo_eq hbm]
  exact hloop

/-- Inversion for `find_biggest_subnet`: any successful result is at least the
alignment mask, is at most 32, and its block's broadcast sits strictly below
`below_lo`. -/
theorem find_biggest_subnet_inv {start_ip start_mask : Nat} {below : Ipv4} {m : Nat}
    (hip : start_ip < 2 ^ 32)
    (h : find_biggest_subnet start_ip start_mask below = some m) :
    ∃ below_lo, below.lo = some below_lo ∧
      lo_mask start_ip ≤ m ∧ start_mask ≤ m ∧ m ≤ 32 ∧
      hiAddr ⟨start_ip, m⟩ < below_lo := by
  simp only [find_biggest_subnet] at h
  by_cases hsm : start_mask > 32
  · rw [if_pos hsm] at h; cases h
  · rw [if_neg hsm] at h
    rcases hlo : below.lo with _ | below_lo
    · rw [hlo] at h; cases h
    · rw [hlo] at h
      refine ⟨below_lo, rfl, ?_⟩
      have main : ∀ fuel next_mask, lo_mask start_ip ≤ next_mask →
          start_mask ≤ next_mask →
          find_biggest_loop start_ip below_lo next_mask fuel = some m →
          lo_mask start_ip ≤ m ∧ start_mask ≤ m ∧ m ≤ 32 ∧
            hiAddr ⟨start_ip, m⟩ < below_lo := by
        intro fuel
        induction fuel with
        | zero => intro next_mask _ _ hcon; simp [find_biggest_loop] at hcon
        | succ fuel ih =>
          intro next_mask hlm hsm2 hloop
          simp only [find_biggest_loop] at hloop
          rcases hbc : broadcast_addr start_ip next_mask with _ | hi
          · simp only [hbc] at hloop
            cases hloop
          · simp only [hbc] at hloop
            have h32 : next_mask ≤ 32 := by
              by_contra hcon
              simp only [broadcast_addr, MAX_LENGTH] at hbc
              rw [if_pos (by omega)] at hbc
              cases hbc
            rw [broadcast_addr_eq hip h32] at hbc
            by_cases hge : hi ≥ below_lo
            · rw [if_pos hge] at hloop
              exact ih (next_mask + 1) (by omega) (by omega) hloop
            · rw [if_neg hge] at hloop
              cases hloop
              refine ⟨hlm, hsm2, h32, ?_⟩
              cases hbc
              omega
      exact main 34 _ (le_max_right _ _) (le_max_left _ _) h

/-! ## Subnet records and report rows -/

theorem ipv4_lt_cases {a b : Ipv4} (h1 : ipv4_lt a b = false) (h2 : ipv4_lt b a = false) :
    a = b := by
  cases a with
  | mk aa am =>
    cases b with
    | mk ba bm =>
      simp only [ipv4_lt, Bool.or_eq_false_iff, Bool.and_eq_false_iff,
        decide_eq_false_iff_not] at h1 h2
      have haa : aa = ba := by omega
      have hmm : am = bm := by
        subst haa
        rcases h1 with ⟨h1a, h1b | h1b⟩ <;> rcases h2 with ⟨h2a, h2b | h2b⟩ <;> omega
      rw [haa, hmm]

theorem opt_cidr_lt_cases {x y : Option Ipv4} (h1 : opt_cidr_lt x y = false)
    (h2 : opt_cidr_lt y x = false) : x = y := by
  match x, y with
  | none, none => rfl
  | none, some _ => simp [opt_cidr_lt] at h1
  | some _, none => simp [opt_cidr_lt] at h2
  | some a, some b =>
    simp only [opt_cidr_lt] at h1 h2
    rw [ipv4_lt_cases h1 h2]

theorem ipv4_lt_asymm {a b : Ipv4} (h : ipv4_lt a b = true) : ipv4_lt b a = false := by
  cases a; cases b
  simp only [ipv4_lt, Bool.or_eq_true, Bool.and_eq_true, decide_eq_true_eq,
    Bool.or_eq_false_iff, Bool.and_eq_false_iff, decide_eq_false_iff_not] at h ⊢
  omega

theorem opt_cidr_lt_asymm {x y : Option Ipv4} (h : opt_cidr_lt x y = true) :
    opt_cidr_lt y x = false := by
  match x, y with
  | none, none => simp [opt_cidr_lt] at h
  | none, some _ => simp [opt_cidr_lt]
  | some _, none => simp [opt_cidr_lt] at h
  | some a, some b => exact ipv4_lt_asymm h

theorem ipv4_lt_trans {a b c : Ipv4} (h1 : ipv4_lt a b = true) (h2 : ipv4_lt b c = true) :
    ipv4_lt a c = true := by
  cases a; cases b; cases c
  simp only [ipv4_lt, Bool.or_eq_true, Bool.and_eq_true, decide_eq_true_eq] at h1 h2 ⊢
  omega

theorem opt_cidr_lt_trans {x y z : Option Ipv4} (h1 : opt_cidr_lt x y = true)
    (h2 : opt_cidr_lt y z = true) : opt_cidr_lt x z = true := by
  match x, y, z with
  | _, none, none => simp [opt_cidr_lt] at h2
  | none, _, some _ => simp [opt_cidr_lt]
  | some _, none, _ => simp [opt_cidr_lt] at h1
  | some a, some b, none => simp [opt_cidr_lt] at h2
  | some a, some b, some c => exact ipv4_lt_trans h1 h2

theorem strLe_total (a b : String) : strLe a b = true ∨ strLe b a = true := by
  simp only [strLe, decide_eq_true_eq]
  exact le_total a b

theorem strLe_trans {a b c : String} (h1 : strLe a b = true) (h2 : strLe b c = true) :
    strLe a c = true := by
  simp only [strLe, decide_eq_true_eq] at h1 h2 ⊢
  exact le_trans h1 h2

theorem strLe_antisymm {a b : String} (h1 : strLe a b = true) (h2 : strLe b a = true) :
    a = b := by
  simp only [strLe, decide_eq_true_eq] at h1 h2
  exact le_antisymm h1 h2

theorem key_le_total (k1 k2 : Option Ipv4 × String) :
    key_le k1 k2 = true ∨ key_le k2 k1 = true := by
  by_cases hlt : opt_cidr_lt k1.1 k2.1 = true
  · left; simp [key_le, hlt]
  · by_cases hlt2 : opt_cidr_lt k2.1 k1.1 = true
    · right; simp [key_le, hlt2]
    · have heq : k1.1 = k2.1 :=
        opt_cidr_lt_cases (Bool.eq_false_iff.mpr hlt) (Bool.eq_false_iff.mpr hlt2)
      rcases strLe_total k1.2 k2.2 with hs | hs
      · left; simp [key_le, heq, hs]
      · right; simp [key_le, heq.symm, hs]

theorem key_le_trans {k1 k2 k3 : Option Ipv4 × String} (h1 : key_le k1 k2 = true)
    (h2 : key_le k2 k3 = true) : key_le k1 k3 = true := by
  simp only [key_le, Bool.or_eq_true, Bool.and_eq_true, decide_eq_true_eq] at h1 h2 ⊢
  rcases h1 with h1 | ⟨h1e, h1s⟩
  · rcases h2 with h2 | ⟨h2e, h2s⟩
    · exact Or.inl (opt_cidr_lt_trans h1 h2)
    · exact Or.inl (h2e ▸ h1)
  · rcases h2 with h2 | ⟨h2e, h2s⟩
    · exact Or.inl (h1e ▸ h2)
    · exact Or.inr ⟨h1e.trans h2e, strLe_trans h1s h2s⟩

theorem key_le_antisymm {k1 k2 : Option Ipv4 × String} (h1 : key_le k1 k2 = true)
    (h2 : key_le k2 k1 = true) : k1 = k2 := by
  simp only [key_le, Bool.or_eq_true, Bool.and_eq_true, decide_eq_true_eq] at h1 h2
  rcases h1 with h1 | ⟨h1e, h1s⟩
  · rcases h2 with h2 | ⟨h2e, h2s⟩
    · rw [opt_cidr_lt_asymm h1] at h2
      cases h2
    · rw [h2e] at h1
      rw [opt_cidr_lt_asymm h1] at h1
      cases h1
  · rcases h2 with h2 | ⟨h2e, h2s⟩
    · rw [h1e] at h2
      rw [opt_cidr_lt_asymm h2] at h2
      cases h2
    · exact Prod.ext h1e (strLe_antisymm h1s h2s)

theorem key_le_refl (k : Option Ipv4 × String) : key_le k k = true := by
  rcases key_le_total k k with h | h <;> exact h

/-! ### Behaviour of `dedup_by_key` on a sorted list -/

theorem dedup_by_key_aux_sublist : ∀ (l : List Subnet) (k : Option Ipv4 × String),
    List.Sublist (dedup_by_key_aux k l) l := by
  intro l
  induction l with
  | nil => intro k; simp [dedup_by_key_aux]
  | cons s rest ih =>
    intro k
    simp only [dedup_by_key_aux]
    by_cases hk : dedup_key s = k
    · rw [if_pos hk]
      exact (ih k).cons s
    · rw [if_neg hk]
      exact (ih (dedup_key s)).cons₂ s

theorem dedup_by_key_sublist (l : List Subnet) : List.Sublist (dedup_by_key l) l := by
  cases l with
  | nil => simp [dedup_by_key]
  | cons s rest => exact (dedup_by_key_aux_sublist rest (dedup_key s)).cons₂ s

theorem dedup_by_key_aux_countP {l : List Subnet} {k0 : Option Ipv4 × String}
    (hsort : l.Pairwise (fun a b => dedup_key_le a b = true))
    (hge : ∀ s ∈ l, key_le k0 (dedup_key s) = true) (k : Option Ipv4 × String) :
    (dedup_by_key_aux k0 l).countP (fun s => decide (dedup_key s = k)) =
      if k = k0 then 0
      else min 1 (l.countP (fun s => decide (dedup_key s = k))) := by
  induction l generalizing k0 with
  | nil => simp [dedup_by_key_aux]
  | cons s rest ih =>
    rcases List.pairwise_cons.mp hsort with ⟨hhead, htail⟩
    simp only [dedup_by_key_aux]
    by_cases hks : dedup_key s = k0
    · rw [if_pos hks]
      have hge' : ∀ t ∈ rest, key_le k0 (dedup_key t) = true := by
        intro t ht
        have := hhead t ht
        simp only [dedup_key_le, hks] at this
        exact this
      rw [ih htail hge']
      by_cases hkk : k = k0
      · rw [if_pos hkk, if_pos hkk]
      · rw [if_neg hkk, if_neg hkk, List.countP_cons]
        have : ¬ (dedup_key s = k) := by rw [hks]; exact fun hc => hkk hc.symm
        simp [this]
    · rw [if_neg hks]
      simp only [List.countP_cons]
      have hge' : ∀ t ∈ rest, key_le (dedup_key s) (dedup_key t) = true := fun t ht =>
        hhead t ht
      rw [ih htail hge']
      by_cases hkk : k = dedup_key s
      · have hk0 : ¬ k = k0 := fun hc => hks (hkk.symm.trans hc)
        have hds : (decide (dedup_key s = k) : Bool) = true := by
          subst hkk; simp
        rw [if_pos hkk, if_neg hk0, hds]
        simp only [if_true, decide_True, if_pos rfl]
        rw [min_eq_left (by omega)]
      · have hds : (decide (dedup_key s = k) : Bool) = false := by
          simp only [decide_eq_false_iff_not]
          exact fun hc => hkk hc.symm
        rw [if_neg hkk, hds]
        by_cases hk0 : k = k0
        · rw [if_pos hk0]
          have hzero : rest.countP (fun s => decide (dedup_key s = k)) = 0 := by
            rw [List.countP_eq_zero]
            intro t ht
            simp only [decide_eq_true_eq]
            intro hc
            apply hks
            have hst := hhead t ht
            simp only [dedup_key_le] at hst
            rw [hc, hk0] at hst
            exact key_le_antisymm hst (hge s (List.mem_cons_self s rest))
          rw [hzero]
          simp
        · rw [if_neg hk0]
          simp

theorem dedup_by_key_countP {l : List Subnet}
    (hsort : l.Pairwise (fun a b => dedup_key_le a b = true)) (k : Option Ipv4 × String) :
    (dedup_by_key l).countP (fun s => decide (dedup_key s = k)) =
      min 1 (l.countP (fun s => decide (dedup_key s = k))) := by
  cases l with
  | nil => simp [dedup_by_key]
  | cons s rest =>
    rcases List.pairwise_cons.mp hsort with ⟨hhead, htail⟩
    have hge : ∀ t ∈ rest, key_le (dedup_key s) (dedup_key t) = true := fun t ht =>
      hhead t ht
    simp only [dedup_by_key, List.countP_cons]
    rw [dedup_by_key_aux_countP htail hge k]
    by_cases hkk : k = dedup_key s
    · have hds : (decide (dedup_key s = k) : Bool) = true := by subst hkk; simp
      rw [if_pos hkk, hds]
      simp only [if_true, decide_True, if_pos rfl]
      rw [min_eq_left (by omega)]
    · have hds : (decide (dedup_key s = k) : Bool) = false := by
        simp only [decide_eq_false_iff_not]
        exact fun hc => hkk hc.symm
      rw [if_neg hkk, hds]
      simp

theorem dedup_by_key_aux_prop {l : List Subnet} {k0 : Option Ipv4 × String}
    (hsort : l.Pairwise (fun a b => dedup_key_le a b = true))
    (hge : ∀ s ∈ l, key_le k0 (dedup_key s) = true) :
    (∀ t ∈ dedup_by_key_aux k0 l, dedup_key t ≠ k0) ∧
      (dedup_by_key_aux k0 l).Pairwise (fun a b => dedup_key a ≠ dedup_key b) := by
  induction l generalizing k0 with
  | nil => simp [dedup_by_key_aux]
  | cons s rest ih =>
    rcases List.pairwise_cons.mp hsort with ⟨hhead, htail⟩
    simp only [dedup_by_key_aux]
    by_cases hks : dedup_key s = k0
    · rw [if_pos hks]
      have hge' : ∀ t ∈ rest, key_le k0 (dedup_key t) = true := by
        intro t ht
        have := hhead t ht
        simp only [dedup_key_le, hks] at this
        exact this
      exact ih htail hge'
    · rw [if_neg hks]
      have hge' : ∀ t ∈ rest, key_le (dedup_key s) (dedup_key t) = true := fun t ht =>
        hhead t ht
      rcases ih htail hge' with ⟨hne, hpw⟩
      constructor
      · intro t ht
        rcases List.mem_cons.mp ht with rfl | ht'
        · exact hks
        · intro hc
          apply hks
          have htmem : t ∈ rest :=
            (dedup_by_key_aux_sublist rest (dedup_key s)).mem ht'
          have hst := hge' t htmem
          rw [hc] at hst
          exact key_le_antisymm hst (hge s (List.mem_cons_self s rest))
      · rw [List.pairwise_cons]
        refine ⟨fun t ht => ?_, hpw⟩
        exact fun hc => hne t ht hc.symm

theorem dedup_by_key_pairwise_ne {l : List Subnet}
    (hsort : l.Pairwise (fun a b => dedup_key_le a b = true)) :
    (dedup_by_key l).Pairwise (fun a b => dedup_key a ≠ dedup_key b) := by
  cases l with
  | nil => simp [dedup_by_key]
  | cons s rest =>
    rcases List.pairwise_cons.mp hsort with ⟨hhead, htail⟩
    have hge : ∀ t ∈ rest, key_le (dedup_key s) (dedup_key t) = true := fun t ht =>
      hhead t ht
    rcases dedup_by_key_aux_prop htail hge with ⟨hne, hpw⟩
    simp only [dedup_by_key, List.pairwise_cons]
    exact ⟨fun t ht hc => hne t ht hc.symm, hpw⟩

theorem dedup_by_key_aux_eq_self {l : List Subnet} {k0 : Option Ipv4 × String}
    (hne : ∀ s ∈ l, dedup_key s ≠ k0)
    (hpw : l.Pairwise (fun a b => dedup_key a ≠ dedup_key b)) :
    dedup_by_key_aux k0 l = l := by
  induction l generalizing k0 with
  | nil => simp [dedup_by_key_aux]
  | cons s rest ih =>
    rcases List.pairwise_cons.mp hpw with ⟨hhead, htail⟩
    simp only [dedup_by_key_aux]
    rw [if_neg (hne s (List.mem_cons_self s rest))]
    rw [ih (fun t ht hc => hhead t ht hc.symm) htail]

theorem dedup_by_key_eq_self {l : List Subnet}
    (hpw : l.Pairwise (fun a b => dedup_key a ≠ dedup_key b)) :
    dedup_by_key l = l := by
  cases l with
  | nil => rfl
  | cons s rest =>
    rcases List.pairwise_cons.mp hpw with ⟨hhead, htail⟩
    simp only [dedup_by_key]
    rw [dedup_by_key_aux_eq_self (fun t ht hc => hhead t ht hc.symm) htail]

theorem dedup_sorted_pairwise (data : Data) (ignore : List String) :
    (dedup_sorted data ignore).Pairwise (fun a b => dedup_key_le a b = true) := by
  have h := @List.sorted_mergeSort _ dedup_key_le
    (fun a b c h1 h2 => key_le_trans h1 h2)
    (fun a b => by
      rcases key_le_total (dedup_key a) (dedup_key b) with h | h <;>
        simp [dedup_key_le, h])
    (data.data.filter (keep_subnet ignore))
  simpa [dedup_sorted] using h

theorem de_duplicate_subnets_eq (data : Data) (ign : Option (List String)) :
    de_duplicate_subnets data ign =
      some { data with
        data := dedup_by_key (dedup_sorted data (ign.getD default_subnet_names_to_ignore)) } :=
  rfl

/-! ### Sample records for concrete dedup scenarios -/

/-- C4: `de_duplicate_subnets` first drops every record whose name is ignored
or whose CIDR is absent (every surviving record satisfies the keep predicate),
and the result holds exactly one record per distinct `(subnet_cidr,
subscription_id)` key occurring among the remaining records: the count of
records with key `k` is `min 1` of its count among the filtered input — `1`
when the key occurs (duplicates collapse), `0` when it does not.  Records
sharing a CIDR across different subscriptions have different keys and are
therefore both retained (see the witness). -/
theorem de_duplicate_subnets_unique_keys :
    ∀ (data : Data) (ign : Option (List String)),
      ∃ D, de_duplicate_subnets data ign = some D ∧
        (∀ s ∈ D.data,
          keep_subnet (ign.getD default_subnet_names_to_ignore) s = true) ∧
        (∀ k, D.data.countP (fun s => decide (dedup_key s = k)) =
          min 1 ((data.data.filter
            (keep_subnet (ign.getD default_subnet_names_to_ignore))).countP
            (fun s => decide (dedup_key s = k)))) := by
  intro data ign
  refine ⟨_, de_duplicate_subnets_eq data ign, ?_, ?_⟩
  · intro s hs
    have h1 : s ∈ dedup_sorted data (ign.getD default_subnet_names_to_ignore) :=
      (dedup_by_key_sublist _).mem hs
    have h2 : s ∈ data.data.filter
        (keep_subnet (ign.getD default_subnet_names_to_ignore)) := by
      simpa [dedup_sorted, List.mem_mergeSort] using h1
    exact List.of_mem_filter h2
  · intro k
    have hsort := dedup_sorted_pairwise data (ign.getD default_subnet_names_to_ignore)
    rw [dedup_by_key_countP hsort k]
    congr 1
    exact List.Perm.countP_eq _ (List.mergeSort_perm _ _)

/-- Witness for C4 at the two concrete scenarios: same CIDR in two different
subscriptions keeps one record per subscription; identical CIDR and
subscription collapse to a single record. -/
theorem de_duplicate_subnets_unique_keys_witness :
    (∃ D, de_duplicate_subnets dedup_data_diff_subs none = some D ∧
      D.data.countP (fun s => decide (dedup_key s = (some dedup_sample_cidr, "sub-1"))) = 1 ∧
      D.data.countP (fun s => decide (dedup_key s = (some dedup_sample_cidr, "sub-2"))) = 1) ∧
    (∃ D, de_duplicate_subnets dedup_data_same_key none = some D ∧
      D.data.countP (fun s => decide (dedup_key s = (some dedup_sample_cidr, "sub-1"))) = 1) := by
  constructor
  · rcases de_duplicate_subnets_unique_keys dedup_data_diff_subs none with
      ⟨D, hD, _, hcount⟩
    refine ⟨D, hD, ?_, ?_⟩
    · rw [hcount (some dedup_sample_cidr, "sub-1")]
      decide
    · rw [hcount (some dedup_sample_cidr, "sub-2")]
      decide
  · rcases de_duplicate_subnets_unique_keys dedup_data_same_key none with
      ⟨D, hD, _, hcount⟩
    refine ⟨D, hD, ?_⟩
    rw [hcount (some dedup_sample_cidr, "sub-1")]
    decide

/-- C7: de-duplication is idempotent — applying `de_duplicate_subnets` twice
(with the same ignore set) gives the same result as applying it once. -/
theorem de_duplicate_subnets_idempotent (data : Data) (ign : Option (List String)) :
    (de_duplicate_subnets data ign).bind (fun d => de_duplicate_subnets d ign) =
      de_duplicate_subnets data ign := by
  rw [de_duplicate_subnets_eq, Option.some_bind]
  have hsort := dedup_sorted_pairwise data (ign.getD default_subnet_names_to_ignore)
  have hsub := dedup_by_key_sublist
    (dedup_sorted data (ign.getD default_subnet_names_to_ignore))
  have hlsorted : (dedup_by_key
      (dedup_sorted data (ign.getD default_subnet_names_to_ignore))).Pairwise
      (fun a b => dedup_key_le a b = true) := hsort.sublist hsub
  have hne := dedup_by_key_pairwise_ne hsort
  have hfilter : (dedup_by_key
      (dedup_sorted data (ign.getD default_subnet_names_to_ignore))).filter
      (keep_subnet (ign.getD default_subnet_names_to_ignore)) =
      dedup_by_key (dedup_sorted data (ign.getD default_subnet_names_to_ignore)) := by
    rw [List.filter_eq_self]
    intro t ht
    have h1 : t ∈ dedup_sorted data (ign.getD default_subnet_names_to_ignore) :=
      hsub.mem ht
    have h2 : t ∈ data.data.filter (keep_subnet (ign.getD default_subnet_names_to_ignore)) := by
      simpa [dedup_sorted, List.mem_mergeSort] using h1
    exact List.of_mem_filter h2
  rw [de_duplicate_subnets_eq]
  have hstep : dedup_sorted
      { data with
          data := dedup_by_key
            (dedup_sorted data (ign.getD default_subnet_names_to_ignore)) }
      (ign.getD default_subnet_names_to_ignore) =
      dedup_by_key (dedup_sorted data (ign.getD default_subnet_names_to_ignore)) := by
    simp only [dedup_sorted] at hfilter hlsorted ⊢
    rw [hfilter]
    exact List.mergeSort_of_sorted hlsorted
  rw [hstep, dedup_by_key_eq_self hne]

/-- C6: `num_az_hosts n` is `2^(32-n) - 5` for `n < 30` and an error (never an
underflowed value) exactly when `n ≥ 30`. -/
theorem num_az_hosts_spec :
    ∀ n : Nat, (n < 30 → num_az_hosts n = some (2 ^ (32 - n) - 5)) ∧
      (30 ≤ n → num_az_hosts n = none) := by
  intro n
  constructor
  · intro h
    simp only [num_az_hosts, MAX_LENGTH]
    rw [if_neg (by omega), Nat.shiftLeft_eq, one_mul]
  · intro h
    simp only [num_az_hosts, MAX_LENGTH]
    rw [if_pos (by omega)]

/-- Witness for C6 at `/24` (251 usable hosts) and at the `/30` boundary. -/
theorem num_az_hosts_spec_witness :
    num_az_hosts 24 = some 251 ∧ num_az_hosts 30 = none := by
  constructor
  · rw [(num_az_hosts_spec 24).1 (by norm_num)]
    norm_num
  · exact (num_az_hosts_spec 30).2 (by norm_num)

/-- C10: for `n ≤ 32`, `ip_after_subnet` errors exactly when the `n`-aligned
network block containing the address is the last `/n` block of the 32-bit
space, and otherwise returns the network address plus `2^(32-n)`. -/
theorem ip_after_subnet_spec :
    ∀ (addr n : Nat), addr < 2 ^ 32 → n ≤ 32 →
      (loAddr ⟨addr, n⟩ = 2 ^ 32 - 2 ^ (32 - n) → ip_after_subnet addr n = none) ∧
      (loAddr ⟨addr, n⟩ ≠ 2 ^ 32 - 2 ^ (32 - n) →
        ip_after_subnet addr n = some (loAddr ⟨addr, n⟩ + 2 ^ (32 - n))) := by
  intro addr n haddr hn
  have hle := loAddr_add_size_le (c := ⟨addr, n⟩) haddr hn
  have hpow : (2:Nat) ^ (32 - n) ≤ 2 ^ 32 :=
    Nat.pow_le_pow_right (by norm_num) (by omega)
  constructor
  · intro h
    rw [ip_after_subnet_eq haddr hn, if_pos (by omega)]
  · intro h
    rw [ip_after_subnet_eq haddr hn, if_neg (by omega)]

/-- Witness for C10: the last `/24` block wraps (error), an interior `/32`
block advances by one. -/
theorem ip_after_subnet_spec_witness :
    ip_after_subnet 4294967295 24 = none ∧
      ip_after_subnet 3232235776 32 = some 3232235777 := by
  constructor
  · exact (ip_after_subnet_spec 4294967295 24 (by norm_num) (by norm_num)).1 (by decide)
  · have h := (ip_after_subnet_spec 3232235776 32 (by norm_num) (by norm_num)).2 (by decide)
    rw [h]
    decide

/-- C1: under the caller invariants (`start_ip` strictly below the next
subnet's network address, requested mask in `0..=32`), `find_biggest_subnet`
returns the smallest prefix length `m` with
`m ≥ max start_mask (lo_mask start_ip)` whose block's broadcast lies strictly
below `below`'s network address; in particular
`find_biggest_subnet 10.6.2.80 16 (10.6.8.0/24) = 28`. -/
theorem find_biggest_subnet_correct :
    (∀ (start_ip start_mask : Nat) (below : Ipv4),
      start_ip < 2 ^ 32 → below.mask ≤ 32 → start_mask ≤ 32 →
      start_ip < loAddr below →
      ∃ m, find_biggest_subnet start_ip start_mask below = some m ∧
        max start_mask (lo_mask start_ip) ≤ m ∧
        hiAddr ⟨start_ip, m⟩ < loAddr below ∧
        ∀ k, max start_mask (lo_mask start_ip) ≤ k → k < m →
          ¬ hiAddr ⟨start_ip, k⟩ < loAddr below) ∧
    find_biggest_subnet (10 * 2 ^ 24 + 6 * 2 ^ 16 + 2 * 2 ^ 8 + 80) 16
      ⟨10 * 2 ^ 24 + 6 * 2 ^ 16 + 8 * 2 ^ 8, 24⟩ = some 28 := by
  constructor
  · intro start_ip start_mask below hip hbm hsm hlt
    rcases find_biggest_subnet_spec hip hsm hbm hlt with ⟨m, h1, h2, _, h4, h5⟩
    exact ⟨m, h1, h2, h4, h5⟩
  · decide

/-- Witness for C1: the universal part applied at the concrete
`10.6.2.80 / 16 / 10.6.8.0/24` instance, recovering the minimal mask 28. -/
theorem find_biggest_subnet_correct_witness :
    ∃ m, find_biggest_subnet (10 * 2 ^ 24 + 6 * 2 ^ 16 + 2 * 2 ^ 8 + 80) 16
        ⟨10 * 2 ^ 24 + 6 * 2 ^ 16 + 8 * 2 ^ 8, 24⟩ = some m ∧
      max 16 (lo_mask (10 * 2 ^ 24 + 6 * 2 ^ 16 + 2 * 2 ^ 8 + 80)) ≤ m := by
  rcases find_biggest_subnet_correct.1 (10 * 2 ^ 24 + 6 * 2 ^ 16 + 2 * 2 ^ 8 + 80) 16
      ⟨10 * 2 ^ 24 + 6 * 2 ^ 16 + 8 * 2 ^ 8, 24⟩ (by norm_num) (by norm_num)
      (by norm_num) (by decide) with ⟨m, h1, h2, _⟩
  exact ⟨m, h1, h2⟩

/-- C3 counterexample: with `next_ip = 1` strictly above the subnet's network
address `0.0.0.0` (but below the raw address `0.0.0.5`), `process_subnet_row`
does not abort — the claimed check against the *network address* is not what
the code implements. -/
theorem process_entry_check_counterexample :
    (process_subnet_row unaligned_subnet 0 1 ⟨0, 24⟩ 28
        SKIP_SUBNET_SMALLER_THAN).isSome = true ∧
      loAddr ⟨5, 24⟩ < 1 := by decide

/-- C3 amended: the entry check of `process_subnet_row` compares `next_ip`
against the subnet's raw `addr` (which equals the network address whenever the
stored CIDR is aligned): the run aborts on entry exactly when
`next_ip > subnet_cidr.addr`; in particular whenever
`next_ip ≤ network_address` the check passes and processing continues with the
row-emitting body. -/
theorem process_entry_check :
    ∀ (s : Subnet) (c : Ipv4) (i next_ip : Nat) (vp : Ipv4) (dm skip : Nat),
      s.subnet_cidr = some c →
      (c.addr < next_ip →
        process_subnet_row s i next_ip vp dm skip = none) ∧
      (next_ip ≤ loAddr c →
        process_subnet_row s i next_ip vp dm skip =
          process_subnet_row_core s i next_ip c dm) := by
  intro s c i next_ip vp dm skip hc
  constructor
  · intro h
    simp only [process_subnet_row, hc]
    rw [if_neg (by omega)]
  · intro h
    have hle : next_ip ≤ c.addr := le_trans h (loAddr_le_addr c)
    simp only [process_subnet_row, hc]
    rw [if_pos hle]

/-- Witness for the amended C3: an out-of-order record aborts; an in-order
record (`next_ip` at the network address) is processed by the body. -/
theorem process_entry_check_witness :
    process_subnet_row unaligned_subnet 0 6 ⟨0, 24⟩ 28 SKIP_SUBNET_SMALLER_THAN = none ∧
      process_subnet_row unaligned_subnet 0 0 ⟨0, 24⟩ 28 SKIP_SUBNET_SMALLER_THAN =
        process_subnet_row_core unaligned_subnet 0 0 ⟨5, 24⟩ 28 := by
  constructor
  · exact (process_entry_check unaligned_subnet ⟨5, 24⟩ 0 6 ⟨0, 24⟩ 28
      SKIP_SUBNET_SMALLER_THAN rfl).1 (by norm_num)
  · exact (process_entry_check unaligned_subnet ⟨5, 24⟩ 0 0 ⟨0, 24⟩ 28
      SKIP_SUBNET_SMALLER_THAN rfl).2 (by decide)

theorem any_option_true_iff {α : Type} {f : α → Option Bool} :
    ∀ {l : List α} {b : Bool}, any_option f l = some b →
      (b = true ↔ ∃ a ∈ l, f a = some true) := by
  intro l
  induction l with
  | nil =>
    intro b h
    simp only [any_option, Option.some.injEq] at h
    simp [← h]
  | cons a as ih =>
    intro b h
    simp only [any_option] at h
    rcases hfa : f a with _ | fb
    · rw [hfa] at h; cases h
    · rw [hfa] at h
      cases fb with
      | true =>
        simp only [Option.some.injEq] at h
        subst h
        simp only [true_iff]
        exact ⟨a, List.mem_cons_self a as, hfa⟩
      | false =>
        rw [ih h]
        constructor
        · rintro ⟨t, ht, hft⟩
          exact ⟨t, List.mem_cons_of_mem a ht, hft⟩
        · rintro ⟨t, ht, hft⟩
          rcases List.mem_cons.mp ht with rfl | ht'
          · rw [hfa] at hft; cases hft
          · exact ⟨t, ht', hft⟩

/-- Each gap row emitted by the gap loop carries its block, ordinal 0, the
`"-gap-"` tag, and the four identity fields chosen by the
`vnet.contains(next_ip)` test. -/
theorem gap_rows_loop_fields {s : Subnet} {c : Ipv4} {dm : Nat} :
    ∀ (fuel next_ip below_lo : Nat) (st : Nat × List SubnetPrintRow),
      gap_rows_loop s c dm fuel next_ip below_lo = some st →
      ∀ r ∈ st.2, ∃ g : Ipv4, r.subnet_cidr = some g ∧ r.j = 0 ∧ r.gap = "-gap-" ∧
        ∃ b, any_option (fun v => v.contains g.addr) s.vnet_cidr = some b ∧
          r.subscription_name = (if b then s.subscription_name else "None") ∧
          r.vnet_cidr = (if b then format_vnet_cidr s.vnet_cidr else "None") ∧
          r.vnet_name = (if b then s.vnet_name else "None") ∧
          r.subscription_id = (if b then s.subscription_id else "None") := by
  intro fuel
  induction fuel with
  | zero =>
    intro next_ip below_lo st h r hr
    simp only [gap_rows_loop] at h
    by_cases hlt : next_ip < below_lo
    · rw [if_pos hlt] at h; cases h
    · rw [if_neg hlt] at h
      cases h
      simp at hr
  | succ fuel ih =>
    intro next_ip below_lo st h r hr
    simp only [gap_rows_loop] at h
    by_cases hlt : next_ip < below_lo
    · rw [if_pos hlt] at h
      simp only [Option.bind_eq_some, Option.map_eq_some'] at h
      rcases h with ⟨next_mask, hfb, giv, hgiv, bc, hbc, hosts, hhosts,
        new_next, hnn, final, hrec, hst⟩
      subst hst
      rcases List.mem_cons.mp hr with rfl | hr'
      · exact ⟨⟨next_ip, next_mask⟩, rfl, rfl, rfl, giv, hgiv, rfl, rfl, rfl, rfl⟩
      · exact ih new_next below_lo final hrec r hr'
    · rw [if_neg hlt] at h
      cases h
      simp at hr

/-- C9: every synthesized gap row (`j = 0`) of `process_subnet_row` carries
either the record's `subscription_name` / `vnet_cidr` / `vnet_name` /
`subscription_id` — when some VNet CIDR of the record contains the gap's start
address — or the string `"None"` in all four fields when none does. -/
theorem gap_row_fields_correct :
    ∀ (s : Subnet) (c : Ipv4) (i next_ip : Nat) (vp : Ipv4) (dm skip : Nat)
      (st : Nat × Ipv4 × List SubnetPrintRow),
      s.subnet_cidr = some c →
      process_subnet_row s i next_ip vp dm skip = some st →
      ∀ r ∈ st.2.2, r.j = 0 →
        ∃ g : Ipv4, r.subnet_cidr = some g ∧
          ((¬ ∃ v ∈ s.vnet_cidr, v.contains g.addr = some true) →
            r.subscription_name = "None" ∧ r.vnet_cidr = "None" ∧
            r.vnet_name = "None" ∧ r.subscription_id = "None") ∧
          ((∃ v ∈ s.vnet_cidr, v.contains g.addr = some true) →
            r.subscription_name = s.subscription_name ∧
            r.vnet_cidr = format_vnet_cidr s.vnet_cidr ∧
            r.vnet_name = s.vnet_name ∧
            r.subscription_id = s.subscription_id) := by
  intro s c i next_ip vp dm skip st hc hp r hr hj
  simp only [process_subnet_row, hc] at hp
  by_cases hchk : next_ip ≤ c.addr
  · rw [if_pos hchk] at hp
    simp only [process_subnet_row_core, Option.bind_eq_some] at hp
    rcases hp with ⟨below_lo, hlo, loop_state, hloop, v0, hv0, bc, hbc, hosts,
      hhosts, new_next, hnn, hst⟩
    injection hst with hst
    subst hst
    rcases List.mem_append.mp hr with hr' | hr'
    · rcases gap_rows_loop_fields _ _ _ _ hloop r hr' with
        ⟨g, hg, _, _, b, hb, hsub, hvc, hvn, hsid⟩
      refine ⟨g, hg, ?_, ?_⟩
      · intro hnot
        have hbf : b = false := by
          cases b
          · rfl
          · exact absurd ((any_option_true_iff hb).mp rfl) hnot
        subst hbf
        simp only [Bool.false_eq_true, if_false] at hsub hvc hvn hsid
        exact ⟨hsub, hvc, hvn, hsid⟩
      · intro hex
        have hbt : b = true := (any_option_true_iff hb).mpr hex
        subst hbt
        simp only [if_true] at hsub hvc hvn hsid
        exact ⟨hsub, hvc, hvn, hsid⟩
    · simp only [List.mem_singleton] at hr'
      subst hr'
      simp at hj
  · rw [if_neg hchk] at hp
    cases hp

/-- Witness for C9 at the concrete out-of-VNet gap: the theorem applied to the
emitted gap row, whose four identity fields are `"None"`. -/
theorem gap_row_fields_correct_witness :
    ∃ g : Ipv4, gap_out_row.subnet_cidr = some g ∧
      ((¬ ∃ v ∈ gap_sample_out.vnet_cidr, v.contains g.addr = some true) →
        gap_out_row.subscription_name = "None" ∧ gap_out_row.vnet_cidr = "None" ∧
        gap_out_row.vnet_name = "None" ∧ gap_out_row.subscription_id = "None") ∧
      ((∃ v ∈ gap_sample_out.vnet_cidr, v.contains g.addr = some true) →
        gap_out_row.subscription_name = gap_sample_out.subscription_name ∧
        gap_out_row.vnet_cidr = format_vnet_cidr gap_sample_out.vnet_cidr ∧
        gap_out_row.vnet_name = gap_sample_out.vnet_name ∧
        gap_out_row.subscription_id = gap_sample_out.subscription_id) :=
  gap_row_fields_correct gap_sample_out ⟨16, 28⟩ 1 0 ⟨0, 24⟩ 28
    SKIP_SUBNET_SMALLER_THAN gap_sample_out_st rfl (by decide)
    gap_out_row (by decide) rfl

/-! ## Tiling of the emitted rows (C2 infrastructure) -/

theorem tiles_from_append {xs ys : List (Nat × Nat)} :
    ∀ {start : Nat} (mid : Nat) {stop : Nat},
      tiles_from start xs mid → tiles_from mid ys stop →
      tiles_from start (xs ++ ys) stop := by
  induction xs with
  | nil =>
    intro start mid stop h1 h2
    simp only [tiles_from] at h1
    subst h1
    simpa using h2
  | cons x xs ih =>
    intro start mid stop h1 h2
    rcases x with ⟨a, b⟩
    rcases h1 with ⟨ha, hab, h1⟩
    exact ⟨ha, hab, ih mid h1 h2⟩

/-- Inversion for `Ipv4.lo`. -/
theorem lo_some_inv {c : Ipv4} {x : Nat} (h : c.lo = some x) :
    c.mask ≤ 32 ∧ x = loAddr c := by
  by_cases hm : c.mask ≤ 32
  · rw [lo_eq hm] at h
    cases h
    exact ⟨hm, rfl⟩
  · simp only [Ipv4.lo, cut_addr, MAX_LENGTH] at h
    rw [if_pos (by omega)] at h
    cases h

/-- The entry `assert!` passes whenever `next_ip` does not exceed the raw
subnet address, and processing continues with the body. -/
theorem process_eq_core_of_le {s : Subnet} {c : Ipv4} {i next_ip : Nat} {vp : Ipv4}
    {dm skip : Nat} (hc : s.subnet_cidr = some c) (h : next_ip ≤ c.addr) :
    process_subnet_row s i next_ip vp dm skip =
      process_subnet_row_core s i next_ip c dm := by
  simp only [process_subnet_row, hc]
  rw [if_pos h]

/-- The entry `assert!` aborts when `next_ip` exceeds the raw subnet address. -/
theorem process_eq_none_of_gt {s : Subnet} {c : Ipv4} {i next_ip : Nat} {vp : Ipv4}
    {dm skip : Nat} (hc : s.subnet_cidr = some c) (h : c.addr < next_ip) :
    process_subnet_row s i next_ip vp dm skip = none := by
  simp only [process_subnet_row, hc]
  rw [if_neg (by omega)]

/-- The advance step after an aligned block `⟨ip, m⟩` strictly below a bound
inside the address space: `next_subnet_ipv4 … |>.lo` lands exactly one past the
block's broadcast. -/
theorem advance_after_block {ip m : Nat} (hip : ip < 2 ^ 32) (hm : m ≤ 32)
    (hal : ip % 2 ^ (32 - m) = 0) (hfit : hiAddr ⟨ip, m⟩ + 1 < 2 ^ 32) :
    (next_subnet_ipv4 ⟨ip, m⟩ none).bind Ipv4.lo = some (ip + 2 ^ (32 - m)) := by
  have hpos : (0:Nat) < 2 ^ (32 - m) := Nat.two_pow_pos _
  have hlo : loAddr ⟨ip, m⟩ = ip := loAddr_of_aligned hal
  have hhi : hiAddr ⟨ip, m⟩ = ip + (2 ^ (32 - m) - 1) := by
    simp only [hiAddr, hlo]
  have hfit2 : ip + 2 ^ (32 - m) < 2 ^ 32 := by
    rw [hhi] at hfit
    omega
  simp only [next_subnet_ipv4, Option.getD]
  rw [if_pos (le_refl _)]
  rw [ip_after_subnet_eq hip hm, hlo]
  rw [if_neg (by omega)]
  simp only [Option.map_some', Option.some_bind]
  have hal2 : (ip + 2 ^ (32 - m)) % 2 ^ (32 - m) = 0 := by
    rw [Nat.add_mod, hal, Nat.mod_self]
    simp
  rw [lo_eq (c := ⟨ip + 2 ^ (32 - m), m⟩) hm, loAddr_of_aligned hal2]

/-- Tiling of the gap loop: starting at or below `below_lo` with enough fuel,
a successful run of the gap loop ends exactly at `below_lo` and its rows'
ranges tile `[next_ip, below_lo)`. -/
theorem gap_rows_loop_tiles {s : Subnet} {c : Ipv4} {dm : Nat} :
    ∀ (fuel next_ip below_lo : Nat) (st : Nat × List SubnetPrintRow),
      below_lo < 2 ^ 32 →
      c.lo = some below_lo →
      next_ip ≤ below_lo →
      below_lo - next_ip ≤ fuel →
      gap_rows_loop s c dm fuel next_ip below_lo = some st →
      st.1 = below_lo ∧ tiles_from next_ip (row_blocks st.2) below_lo := by
  intro fuel
  induction fuel with
  | zero =>
    intro next_ip below_lo st h32 hclo hle hfuel h
    have heq : next_ip = below_lo := by omega
    simp only [gap_rows_loop] at h
    rw [if_neg (by omega)] at h
    cases h
    exact ⟨heq.symm ▸ rfl, heq⟩
  | succ fuel ih =>
    intro next_ip below_lo st h32 hclo hle hfuel h
    simp only [gap_rows_loop] at h
    by_cases hlt : next_ip < below_lo
    · rw [if_pos hlt] at h
      simp only [Option.bind_eq_some, Option.map_eq_some'] at h
      rcases h with ⟨next_mask, hfb, giv, hgiv, bc, hbc, hosts, hhosts,
        new_next, hnn, final, hrec, hst⟩
      have hip : next_ip < 2 ^ 32 := by omega
      rcases find_biggest_subnet_inv hip hfb with ⟨bl, hbl, hlm, _, hm32, hhi⟩
      rw [hclo] at hbl
      injection hbl with hbl
      subst hbl
      have hal : next_ip % 2 ^ (32 - next_mask) = 0 := aligned_of_lo_mask_le hlm
      have hloa : loAddr ⟨next_ip, next_mask⟩ = next_ip := loAddr_of_aligned hal
      have hpos : (0:Nat) < 2 ^ (32 - next_mask) := Nat.two_pow_pos _
      have hhi2 : hiAddr ⟨next_ip, next_mask⟩ = next_ip + (2 ^ (32 - next_mask) - 1) := by
        simp only [hiAddr, hloa]
      have hadv := advance_after_block hip hm32 hal (by omega)
      rcases hnn with ⟨nsub, hns1, hns2⟩
      rw [hns1, Option.some_bind, hns2] at hadv
      injection hadv with hadv
      subst hadv
      have hstep := ih (next_ip + 2 ^ (32 - next_mask)) below_lo final h32 hclo
        (by omega) (by omega) hrec
      subst hst
      refine ⟨hstep.1, ?_⟩
      simp only [row_blocks, List.filterMap_cons, Option.map_some']
      refine ⟨hloa, by rw [hloa, hhi2]; omega, ?_⟩
      have : hiAddr ⟨next_ip, next_mask⟩ + 1 = next_ip + 2 ^ (32 - next_mask) := by
        rw [hhi2]; omega
      rw [this]
      exact hstep.2
    · rw [if_neg hlt] at h
      cases h
      have heq : next_ip = below_lo := by omega
      exact ⟨heq.symm ▸ rfl, heq⟩

/-- Tiling of one full record step: under the in-order invariant
(`next_ip` at or below the subnet's network address), a successful
`process_subnet_row_core` returns `broadcast + 1` and rows tiling
`[next_ip, broadcast + 1)`. -/
theorem process_core_tiles {s : Subnet} {c : Ipv4} {i next_ip dm : Nat}
    {st : Nat × Ipv4 × List SubnetPrintRow}
    (haddr : c.addr < 2 ^ 32) (hle : next_ip ≤ loAddr c)
    (h : process_subnet_row_core s i next_ip c dm = some st) :
    st.1 = hiAddr c + 1 ∧ tiles_from next_ip (row_blocks st.2.2) (hiAddr c + 1) := by
  simp only [process_subnet_row_core, Option.bind_eq_some] at h
  rcases h with ⟨below_lo, hlo, loop_state, hloop, v0, hv0, bc, hbc, hosts,
    hhosts, new_next, hnn, hst⟩
  rcases lo_some_inv hlo with ⟨hm32, hbl⟩
  subst hbl
  have hlo32 : loAddr c < 2 ^ 32 := lt_of_le_of_lt (loAddr_le_addr c) haddr
  have hloop2 := gap_rows_loop_tiles (loAddr c - next_ip) next_ip (loAddr c)
    loop_state hlo32 hlo hle (le_refl _) hloop
  have hpos : (0:Nat) < 2 ^ (32 - c.mask) := Nat.two_pow_pos _
  rcases hnn with ⟨nsub, hns1, hns2⟩
  have heta : (⟨c.addr, c.mask⟩ : Ipv4) = c := rfl
  by_cases hover : loAddr c + 2 ^ (32 - c.mask) = 2 ^ 32
  · exfalso
    have hnone : next_subnet_ipv4 c none = none := by
      simp only [next_subnet_ipv4, Option.getD]
      rw [if_pos (le_refl _)]
      rw [ip_after_subnet_eq haddr hm32, heta, if_pos hover]
      rfl
    rw [hnone] at hns1
    cases hns1
  have hadv : (next_subnet_ipv4 c none).bind Ipv4.lo = some (loAddr c + 2 ^ (32 - c.mask)) := by
    simp only [next_subnet_ipv4, Option.getD]
    rw [if_pos (le_refl _)]
    rw [ip_after_subnet_eq haddr hm32, heta, if_neg hover]
    simp only [Option.map_some', Option.some_bind]
    have hal2 : (loAddr c + 2 ^ (32 - c.mask)) % 2 ^ (32 - c.mask) = 0 := by
      rw [Nat.add_mod, loAddr_mod, Nat.mod_self]
      simp
    rw [lo_eq (c := ⟨loAddr c + 2 ^ (32 - c.mask), c.mask⟩) hm32,
      loAddr_of_aligned hal2]
  rw [hns1, Option.some_bind, hns2] at hadv
  injection hadv with hadv
  subst hadv
  have hsum : hiAddr c + 1 = loAddr c + 2 ^ (32 - c.mask) := by
    simp only [hiAddr]
    omega
  injection hst with hst
  subst hst
  refine ⟨by rw [hsum], ?_⟩
  simp only [row_blocks, List.filterMap_append, List.filterMap_cons, List.filterMap_nil,
    Option.map_some']
  exact tiles_from_append _ (by simpa [row_blocks] using hloop2.2)
    ⟨rfl, loAddr_le_hiAddr c, rfl⟩

/-- Tiling of the whole driver fold: with all records carrying a CIDR
(`cidrs` is the parallel list of those CIDRs), consecutive blocks strictly
ordered, and `next_ip` at or below the first network address, a successful
fold ends one past the last broadcast and its rows tile everything from
`next_ip` up to there. -/
theorem subnet_rows_fold_tiles :
    ∀ (records : List Subnet) (cidrs : List Ipv4) (i next_ip : Nat) (vp : Ipv4)
      (dm : Nat) (st : Nat × Ipv4 × List SubnetPrintRow) (hne : cidrs ≠ []),
      records.map Subnet.subnet_cidr = cidrs.map some →
      (∀ cs ∈ cidrs, cs.addr < 2 ^ 32) →
      List.Chain' (fun a b => hiAddr a < loAddr b) cidrs →
      next_ip ≤ loAddr (cidrs.head hne) →
      subnet_rows_fold records i next_ip vp dm = some st →
      st.1 = hiAddr (cidrs.getLast hne) + 1 ∧
        tiles_from next_ip (row_blocks st.2.2) st.1 := by
  intro records
  induction records with
  | nil =>
    intro cidrs i next_ip vp dm st hne hcorr haddr hchain hle hfold
    exfalso
    apply hne
    cases cidrs with
    | nil => rfl
    | cons c cs => simp at hcorr
  | cons s rest ih =>
    intro cidrs i next_ip vp dm st hne hcorr haddr hchain hle hfold
    cases cidrs with
    | nil => simp at hcorr
    | cons c0 crest =>
      simp only [List.map_cons, List.cons.injEq] at hcorr
      rcases hcorr with ⟨hs, hrest⟩
      have hle0 : next_ip ≤ loAddr c0 := hle
      simp only [subnet_rows_fold, Option.bind_eq_some, Option.map_eq_some'] at hfold
      rcases hfold with ⟨st1, hp, st2, hrec, hst⟩
      rw [process_eq_core_of_le hs (le_trans hle0 (loAddr_le_addr c0))] at hp
      rcases process_core_tiles (haddr c0 (List.mem_cons_self _ _)) hle0 hp with
        ⟨h1, h2⟩
      cases crest with
      | nil =>
        have hrest2 : rest = [] := by
          cases rest with
          | nil => rfl
          | cons r rs => simp at hrest
        subst hrest2
        simp only [subnet_rows_fold, Option.some.injEq] at hrec
        subst hrec
        subst hst
        refine ⟨h1, ?_⟩
        simp only [row_blocks, List.filterMap_append, List.filterMap_nil,
          List.append_nil]
        rw [h1]
        simpa [row_blocks] using h2
      | cons c1 crest2 =>
        have hne2 : (c1 :: crest2 : List Ipv4) ≠ [] := by simp
        have hch01 : hiAddr c0 < loAddr c1 := (List.chain'_cons.mp hchain).1
        have hle1 : st1.1 ≤ loAddr c1 := by
          rw [h1]
          omega
        rcases ih (c1 :: crest2) (i + 1) st1.1 st1.2.1 dm st2 hne2 hrest
          (fun cs hcs => haddr cs (List.mem_cons_of_mem _ hcs))
          (List.chain'_cons.mp hchain).2 hle1 hrec with ⟨h3, h4⟩
        subst hst
        have hlast : (c0 :: c1 :: crest2).getLast hne = (c1 :: crest2).getLast hne2 :=
          List.getLast_cons hne2
        refine ⟨by rw [hlast]; exact h3, ?_⟩
        simp only [row_blocks, List.filterMap_append]
        refine tiles_from_append st1.1 ?_ ?_
        · rw [h1]
          simpa [row_blocks] using h2
        · simpa [row_blocks] using h4

/-- C2 counterexample: a one-element record list that is sorted, pairwise
non-overlapping, all CIDRs present, with the fold started at the first (and
only) subnet's network address `0.0.0.0` — yet the fold aborts (`/30` has no
legal Azure host count), emitting no rows, so nothing tiles the range
`[0.0.0.0, 0.0.0.3]` of the last real subnet. -/
theorem gap_finder_tiles_counterexample :
    subnet_rows_fold [tiny_subnet] 0 (loAddr ⟨0, 30⟩) ⟨0, 24⟩ 28 = none ∧
      loAddr ⟨0, 30⟩ = 0 ∧ hiAddr ⟨0, 30⟩ = 3 := by decide

/-- C2 (amended): over records sorted ascending by `subnet_cidr` whose present
CIDR ranges are pairwise non-overlapping, *whenever the fold of
`process_subnet_row` completes without aborting*, the emitted rows' ranges
exactly tile the address space from the starting address (the first subnet's
network address) through the last subnet's broadcast address — no uncovered
addresses, no overlaps.  (The original, unconditional claim fails because the
fold aborts e.g. on a `/30` subnet, emitting nothing; see the
counterexample.) -/
theorem gap_finder_tiles :
    ∀ (records : List Subnet) (cidrs : List Ipv4) (vp : Ipv4) (dm : Nat)
      (st : Nat × Ipv4 × List SubnetPrintRow) (hne : cidrs ≠ []),
      records.map Subnet.subnet_cidr = cidrs.map some →
      (∀ cs ∈ cidrs, cs.addr < 2 ^ 32) →
      cidrs.Pairwise (fun a b => ipv4_le a b = true) →
      cidrs.Pairwise (fun a b => hiAddr a < loAddr b ∨ hiAddr b < loAddr a) →
      subnet_rows_fold records 0 (loAddr (cidrs.head hne)) vp dm = some st →
      st.1 = hiAddr (cidrs.getLast hne) + 1 ∧
        tiles_from (loAddr (cidrs.head hne)) (row_blocks st.2.2)
          (hiAddr (cidrs.getLast hne) + 1) := by
  intro records cidrs vp dm st hne hcorr haddr hsorted hdisj hfold
  have hchain : List.Chain' (fun a b => hiAddr a < loAddr b) cidrs := by
    apply List.Pairwise.chain'
    apply (hsorted.and hdisj).imp
    rintro a b ⟨hle, hd | hd⟩
    · exact hd
    · exfalso
      have hba : b.addr < a.addr :=
        lt_of_le_of_lt (addr_le_hiAddr b) (lt_of_lt_of_le hd (loAddr_le_addr a))
      simp only [ipv4_le, ipv4_lt, Bool.or_eq_true, Bool.and_eq_true,
        decide_eq_true_eq] at hle
      rcases hle with (h | ⟨h, _⟩) | h
      · omega
      · omega
      · subst h
        omega
  rcases subnet_rows_fold_tiles records cidrs 0 (loAddr (cidrs.head hne)) vp dm st
    hne hcorr haddr hchain (le_refl _) hfold with ⟨h1, h2⟩
  exact ⟨h1, h1 ▸ h2⟩

/-- Witness for the amended C2: two sorted non-overlapping records with a gap
of fourteen `/28` blocks between them; the fold succeeds and the rows tile
`[0.0.0.16, 0.0.1.255]` exactly. -/
theorem gap_finder_tiles_witness :
    ∃ st, subnet_rows_fold [fold_w1, fold_w2] 0 (loAddr ⟨16, 28⟩) ⟨0, 24⟩ 28 = some st ∧
      st.1 = hiAddr ⟨256, 24⟩ + 1 ∧
      tiles_from (loAddr ⟨16, 28⟩) (row_blocks st.2.2) (hiAddr ⟨256, 24⟩ + 1) := by
  rcases hres : subnet_rows_fold [fold_w1, fold_w2] 0 (loAddr ⟨16, 28⟩) ⟨0, 24⟩ 28
    with _ | st
  · exact absurd hres (by decide)
  · have h := gap_finder_tiles [fold_w1, fold_w2] [⟨16, 28⟩, ⟨256, 24⟩] ⟨0, 24⟩ 28 st
      (by simp) (by decide) (by decide) (by decide) (by decide) hres
    exact ⟨st, rfl, h.1, h.2⟩

/-! ## Parsing: serde deserialization vs `Ipv4::new` (C8) -/

theorem split_char_no_sep {sep : Char} :
    ∀ {l : List Char}, sep ∉ l → split_char sep l = [l] := by
  intro l
  induction l with
  | nil => intro; rfl
  | cons c cs ih =>
    intro h
    have hc : ¬ c = sep := fun hc => h (hc ▸ List.mem_cons_self c cs)
    simp only [split_char, if_neg hc]
    rw [ih (fun hm => h (List.mem_cons_of_mem c hm))]

theorem split_char_append {sep : Char} {rest : List Char} :
    ∀ {a : List Char}, sep ∉ a →
      split_char sep (a ++ sep :: rest) = a :: split_char sep rest := by
  intro a
  induction a with
  | nil => intro; simp [split_char]
  | cons c cs ih =>
    intro h
    have hc : ¬ c = sep := fun hc => h (hc ▸ List.mem_cons_self c cs)
    simp only [List.cons_append, split_char, if_neg hc, List.append_eq]
    rw [ih (fun hm => h (List.mem_cons_of_mem c hm))]

theorem dropWhile_of_false {α : Type} {p : α → Bool} :
    ∀ {l : List α}, (∀ c ∈ l, p c = false) → l.dropWhile p = l := by
  intro l
  induction l with
  | nil => intro; rfl
  | cons c cs _ =>
    intro h
    rw [List.dropWhile_cons, h c (List.mem_cons_self c cs)]
    simp

theorem trim_chars_eq_self {l : List Char}
    (h : ∀ c ∈ l, c.isWhitespace = false) : trim_chars l = l := by
  simp only [trim_chars]
  rw [dropWhile_of_false h]
  rw [dropWhile_of_false (fun c hc => h c (List.mem_reverse.mp hc))]
  exact List.reverse_reverse l

/-- C8: serde deserialization accepts any mask that parses as a `u8`
(including every `32 < mask ≤ 255`), producing exactly that mask; the
`prefix_length ≤ 32` bound is enforced only by the `Ipv4::new` constructor,
which errors for any larger mask. -/
theorem deserialize_ipv4_vs_new :
    ∀ (a m : List Char) (addr mask : Nat),
      ipv4_addr_from_str a = some addr → u8_from_str m = some mask →
      '/' ∉ a → '/' ∉ m →
      (∀ ch ∈ a, ch.isWhitespace = false) → (∀ ch ∈ m, ch.isWhitespace = false) →
      deserialize_ipv4 (a ++ '/' :: m) = some ⟨addr, mask⟩ ∧
        ipv4_new (a ++ '/' :: m) =
          (if mask ≤ 32 then some ⟨addr, mask⟩ else none) := by
  intro a m addr mask ha hm hsa hsm hwa hwm
  have hsplit : split_char '/' (a ++ '/' :: m) = [a, m] := by
    rw [split_char_append hsa, split_char_no_sep hsm]
  have hws : ∀ ch ∈ a ++ '/' :: m, ch.isWhitespace = false := by
    intro ch hch
    rcases List.mem_append.mp hch with h | h
    · exact hwa ch h
    · rcases List.mem_cons.mp h with rfl | h
      · rfl
      · exact hwm ch h
  constructor
  · simp only [deserialize_ipv4, hsplit, ha, Option.some_bind, hm, Option.map_some']
  · simp only [ipv4_new, trim_chars_eq_self hws, hsplit, ha, Option.some_bind, hm,
      MAX_LENGTH]
    by_cases h32 : mask ≤ 32
    · rw [if_neg (by omega), if_pos h32]
    · rw [if_pos (by omega), if_neg h32]

/-- Witness for C8: `"10.0.0.0/200"` deserializes with mask 200, while
`Ipv4::new` rejects it. -/
theorem deserialize_ipv4_vs_new_witness :
    deserialize_ipv4 ("10.0.0.0/200".data) = some ⟨10 * 2 ^ 24, 200⟩ ∧
      ipv4_new ("10.0.0.0/200".data) = none := by
  have heq : ("10.0.0.0/200".data) = ("10.0.0.0".data ++ '/' :: "200".data) := by decide
  have h := deserialize_ipv4_vs_new ("10.0.0.0".data) ("200".data) (10 * 2 ^ 24) 200
    (by decide) (by decide) (by decide) (by decide) (by decide) (by decide)
  refine ⟨?_, ?_⟩
  · rw [heq]
    exact h.1
  · rw [heq, h.2]
    decide

/-! ## Overlap detection (src/processing/overlap.rs)

The Rust code groups records into unique `(vnet_name, subscription_id)`
identities in a `HashMap`, then registers every identity's VNet CIDRs into a
second map.  `HashMap` iteration order is unspecified; the embedding uses
insertion-ordered association lists (first-seen order).  The final
`sort_by_key(cidr)` makes the conflict order deterministic either way, and the
claim about each conflict's `vnets` list is stated up to permutation. -/

theorem seen_insert_keys (acc : List ((String × String) × VnetInfo)) (s : Subnet) :
    (seen_insert acc s).map Prod.fst =
      if vnet_key s ∈ acc.map Prod.fst then acc.map Prod.fst
      else acc.map Prod.fst ++ [vnet_key s] := by
  induction acc with
  | nil => simp [seen_insert]
  | cons e rest ih =>
    simp only [seen_insert]
    by_cases he : e.1 = vnet_key s
    · rw [if_pos he]
      simp only [List.map_cons]
      rw [if_pos (by rw [← he]; exact List.mem_cons_self _ _)]
    · rw [if_neg he]
      simp only [List.map_cons, ih]
      have hmem : vnet_key s ∈ e.1 :: rest.map Prod.fst ↔
          vnet_key s ∈ rest.map Prod.fst := by
        constructor
        · intro h
          rcases List.mem_cons.mp h with h | h
          · exact absurd h.symm he
          · exact h
        · exact List.mem_cons_of_mem _
      by_cases hm : vnet_key s ∈ rest.map Prod.fst
      · rw [if_pos hm, if_pos (hmem.mpr hm)]
      · rw [if_neg hm, if_neg (fun hc => hm (hmem.mp hc))]
        simp

theorem seen_insert_mem (acc : List ((String × String) × VnetInfo)) (s : Subnet) :
    ∀ e ∈ seen_insert acc s,
      (∃ e0 ∈ acc, e0.1 = e.1 ∧ e0.2.vnet_cidr = e.2.vnet_cidr ∧
        info_identity e.2 = info_identity e0.2) ∨
      (e = (vnet_key s, vnet_info_of s) ∧ vnet_key s ∉ acc.map Prod.fst) := by
  induction acc with
  | nil =>
    intro e he
    simp only [seen_insert, List.mem_singleton] at he
    exact Or.inr ⟨he, by simp⟩
  | cons e0 rest ih =>
    intro e he
    simp only [seen_insert] at he
    by_cases h0 : e0.1 = vnet_key s
    · rw [if_pos h0] at he
      rcases List.mem_cons.mp he with rfl | he'
      · exact Or.inl ⟨e0, List.mem_cons_self _ _, rfl, rfl, rfl⟩
      · exact Or.inl ⟨e, List.mem_cons_of_mem _ he', rfl, rfl, rfl⟩
    · rw [if_neg h0] at he
      rcases List.mem_cons.mp he with rfl | he'
      · exact Or.inl ⟨e, List.mem_cons_self _ _, rfl, rfl, rfl⟩
      · rcases ih e he' with ⟨e1, he1, hx⟩ | ⟨heq, hnot⟩
        · exact Or.inl ⟨e1, List.mem_cons_of_mem _ he1, hx⟩
        · refine Or.inr ⟨heq, fun hc => ?_⟩
          rcases List.mem_cons.mp hc with hc' | hc'
          · exact h0 hc'.symm
          · exact hnot hc'

/-- The three invariants of the identity map, proved for the general fold
with an explicit processed prefix. -/
theorem seen_vnets_fold_spec :
    ∀ (rest pre : List Subnet) (acc : List ((String × String) × VnetInfo)),
      (∀ k, k ∈ acc.map Prod.fst ↔ ∃ s ∈ pre, vnet_key s = k) →
      (acc.map Prod.fst).Nodup →
      (∀ e ∈ acc, info_identity e.2 = e.1 ∧
        ∃ s, first_record_with pre e.1 = some s ∧ e.2.vnet_cidr = s.vnet_cidr) →
      (∀ k, k ∈ (rest.foldl seen_insert acc).map Prod.fst ↔
        ∃ s ∈ pre ++ rest, vnet_key s = k) ∧
      ((rest.foldl seen_insert acc).map Prod.fst).Nodup ∧
      (∀ e ∈ rest.foldl seen_insert acc, info_identity e.2 = e.1 ∧
        ∃ s, first_record_with (pre ++ rest) e.1 = some s ∧
          e.2.vnet_cidr = s.vnet_cidr) := by
  intro rest
  induction rest with
  | nil =>
    intro pre acc hkeys hnd hinv
    simp only [List.foldl_nil, List.append_nil]
    exact ⟨hkeys, hnd, hinv⟩
  | cons s rest ih =>
    intro pre acc hkeys hnd hinv
    have hkeys' : ∀ k, k ∈ (seen_insert acc s).map Prod.fst ↔
        ∃ t ∈ pre ++ [s], vnet_key t = k := by
      intro k
      rw [seen_insert_keys]
      by_cases hm : vnet_key s ∈ acc.map Prod.fst
      · rw [if_pos hm]
        rw [hkeys k]
        constructor
        · rintro ⟨t, ht, rfl⟩
          exact ⟨t, List.mem_append_left _ ht, rfl⟩
        · rintro ⟨t, ht, rfl⟩
          rcases List.mem_append.mp ht with ht' | ht'
          · exact ⟨t, ht', rfl⟩
          · rcases List.mem_singleton.mp ht' with rfl
            exact (hkeys (vnet_key t)).mp hm
      · rw [if_neg hm]
        rw [List.mem_append, hkeys k, List.mem_singleton]
        constructor
        · rintro (⟨t, ht, rfl⟩ | rfl)
          · exact ⟨t, List.mem_append_left _ ht, rfl⟩
          · exact ⟨s, List.mem_append_right _ (List.mem_singleton_self s), rfl⟩
        · rintro ⟨t, ht, rfl⟩
          rcases List.mem_append.mp ht with ht' | ht'
          · exact Or.inl ⟨t, ht', rfl⟩
          · rcases List.mem_singleton.mp ht' with rfl
            exact Or.inr rfl
    have hnd' : ((seen_insert acc s).map Prod.fst).Nodup := by
      rw [seen_insert_keys]
      by_cases hm : vnet_key s ∈ acc.map Prod.fst
      · rw [if_pos hm]; exact hnd
      · rw [if_neg hm]
        exact List.Nodup.append hnd (List.nodup_singleton _)
          (by simpa [List.disjoint_singleton] using hm)
    have hinv' : ∀ e ∈ seen_insert acc s, info_identity e.2 = e.1 ∧
        ∃ t, first_record_with (pre ++ [s]) e.1 = some t ∧
          e.2.vnet_cidr = t.vnet_cidr := by
      intro e he
      rcases seen_insert_mem acc s e he with
        ⟨e0, he0, hfst, hcidr, hid⟩ | ⟨rfl, hnot⟩
      · rcases hinv e0 he0 with ⟨hid0, t, ht, hc0⟩
        refine ⟨by rw [hid, hid0, hfst], t, ?_, by rw [← hcidr]; exact hc0⟩
        simp only [first_record_with, List.find?_append]
        simp only [first_record_with] at ht
        rw [← hfst, ht]
        rfl
      · refine ⟨rfl, s, ?_, rfl⟩
        simp only [first_record_with, List.find?_append]
        have hnone : pre.find? (fun t => decide (vnet_key t = vnet_key s)) = none := by
          rw [List.find?_eq_none]
          intro t ht
          simp only [decide_eq_true_eq]
          intro hc
          exact hnot ((hkeys (vnet_key s)).mpr ⟨t, ht, hc⟩)
        rw [hnone]
        simp [List.find?]
    have hstep := ih (pre ++ [s]) (seen_insert acc s) hkeys' hnd' hinv'
    have happ : (pre ++ [s]) ++ rest = pre ++ s :: rest := by simp
    rw [happ] at hstep
    simpa only [List.foldl_cons] using hstep

theorem first_dedup_aux_mem :
    ∀ {ks : List (String × String)} {seen k},
      k ∈ first_dedup_aux seen ks ↔ (k ∈ ks ∧ k ∉ seen) := by
  intro ks
  induction ks with
  | nil => intro seen k; simp [first_dedup_aux]
  | cons k0 ks ih =>
    intro seen k
    simp only [first_dedup_aux]
    by_cases h0 : k0 ∈ seen
    · rw [if_pos h0, ih]
      constructor
      · rintro ⟨h1, h2⟩
        exact ⟨List.mem_cons_of_mem _ h1, h2⟩
      · rintro ⟨h1, h2⟩
        rcases List.mem_cons.mp h1 with rfl | h1'
        · exact absurd h0 h2
        · exact ⟨h1', h2⟩
    · rw [if_neg h0]
      constructor
      · intro h
        rcases List.mem_cons.mp h with rfl | h'
        · exact ⟨List.mem_cons_self _ _, h0⟩
        · rcases ih.mp h' with ⟨h1, h2⟩
          exact ⟨List.mem_cons_of_mem _ h1,
            fun hc => h2 (List.mem_cons_of_mem _ hc)⟩
      · rintro ⟨h1, h2⟩
        rcases List.mem_cons.mp h1 with rfl | h1'
        · exact List.mem_cons_self _ _
        · by_cases hk0 : k = k0
          · subst hk0; exact List.mem_cons_self _ _
          · exact List.mem_cons_of_mem _ (ih.mpr ⟨h1', by
              intro hc
              rcases List.mem_cons.mp hc with hc' | hc'
              · exact hk0 hc'
              · exact h2 hc'⟩)

theorem first_dedup_aux_nodup :
    ∀ {ks : List (String × String)} {seen}, (first_dedup_aux seen ks).Nodup := by
  intro ks
  induction ks with
  | nil => intro seen; simp [first_dedup_aux]
  | cons k0 ks ih =>
    intro seen
    simp only [first_dedup_aux]
    by_cases h0 : k0 ∈ seen
    · rw [if_pos h0]; exact ih
    · rw [if_neg h0]
      refine List.nodup_cons.mpr ⟨fun hc => ?_, ih⟩
      exact (first_dedup_aux_mem.mp hc).2 (List.mem_cons_self _ _)

theorem vnet_identities_mem {records : List Subnet} {k : String × String} :
    k ∈ vnet_identities records ↔ ∃ s ∈ records, vnet_key s = k := by
  simp only [vnet_identities, first_dedup_aux_mem, List.not_mem_nil,
    not_false_iff, and_true, List.mem_map]

/-! ### Invariants of the CIDR map -/

theorem cidr_lookup_insert (acc : List (Ipv4 × List VnetInfo)) (c0 : Ipv4)
    (info : VnetInfo) (c : Ipv4) :
    cidr_lookup (cidr_insert acc c0 info) c =
      if c = c0 then cidr_lookup acc c ++ [info] else cidr_lookup acc c := by
  induction acc with
  | nil =>
    simp only [cidr_insert, cidr_lookup]
    by_cases h : c = c0
    · rw [if_pos h, if_pos h.symm]
      simp
    · rw [if_neg h, if_neg (fun hc => h hc.symm)]
  | cons e rest ih =>
    simp only [cidr_insert]
    by_cases h0 : e.1 = c0
    · rw [if_pos h0]
      simp only [cidr_lookup]
      by_cases hc : c = c0
      · rw [if_pos hc, if_pos (h0.trans hc.symm), if_pos (h0.trans hc.symm)]
      · rw [if_neg hc, if_neg (fun h => hc (h0 ▸ h).symm), if_neg (fun h => hc (h0 ▸ h).symm)]
    · rw [if_neg h0]
      simp only [cidr_lookup]
      by_cases he : e.1 = c
      · rw [if_pos he, if_pos he]
        rw [if_neg (fun hc => h0 (he.trans hc))]
      · rw [if_neg he, if_neg he, ih]

theorem cidr_insert_keys (acc : List (Ipv4 × List VnetInfo)) (c0 : Ipv4)
    (info : VnetInfo) :
    (cidr_insert acc c0 info).map Prod.fst =
      if c0 ∈ acc.map Prod.fst then acc.map Prod.fst
      else acc.map Prod.fst ++ [c0] := by
  induction acc with
  | nil => simp [cidr_insert]
  | cons e rest ih =>
    simp only [cidr_insert]
    by_cases h0 : e.1 = c0
    · rw [if_pos h0]
      simp only [List.map_cons]
      rw [if_pos (by rw [← h0]; exact List.mem_cons_self _ _)]
    · rw [if_neg h0]
      simp only [List.map_cons, ih]
      by_cases hm : c0 ∈ rest.map Prod.fst
      · rw [if_pos hm, if_pos (List.mem_cons_of_mem _ hm)]
      · rw [if_neg hm, if_neg (by
          intro hc
          rcases List.mem_cons.mp hc with hc' | hc'
          · exact h0 hc'.symm
          · exact hm hc')]
        simp

/-- Registering one identity's CIDR list (no duplicates) appends the identity
to exactly the entries of its CIDRs. -/
theorem cidr_fold_info_lookup {info : VnetInfo} :
    ∀ (l : List Ipv4) (acc : List (Ipv4 × List VnetInfo)) (c : Ipv4), l.Nodup →
      cidr_lookup (l.foldl (fun a cc => cidr_insert a cc info) acc) c =
        cidr_lookup acc c ++ (if c ∈ l then [info] else []) := by
  intro l
  induction l with
  | nil => intro acc c _; simp
  | cons c0 l ih =>
    intro acc c hnd
    rcases List.nodup_cons.mp hnd with ⟨h0, hnd'⟩
    simp only [List.foldl_cons]
    rw [ih _ c hnd', cidr_lookup_insert]
    by_cases hc : c = c0
    · rw [if_pos hc]
      rw [if_neg (fun hm => h0 (hc ▸ hm)), if_pos (hc ▸ List.mem_cons_self c0 l)]
      simp
    · rw [if_neg hc]
      by_cases hm : c ∈ l
      · rw [if_pos hm, if_pos (List.mem_cons_of_mem _ hm)]
      · rw [if_neg hm, if_neg (by
          intro hmem
          rcases List.mem_cons.mp hmem with h | h
          · exact hc h
          · exact hm h)]

/-- Registering a list of identities: the entry of `c` collects, in order,
exactly the identities whose CIDR list contains `c`. -/
theorem cidr_fold_lookup :
    ∀ (infos : List VnetInfo) (acc : List (Ipv4 × List VnetInfo)) (c : Ipv4),
      (∀ i ∈ infos, i.vnet_cidr.Nodup) →
      cidr_lookup (infos.foldl
          (fun a i => i.vnet_cidr.foldl (fun a2 cc => cidr_insert a2 cc i) a) acc) c =
        cidr_lookup acc c ++ infos.filter (fun i => decide (c ∈ i.vnet_cidr)) := by
  intro infos
  induction infos with
  | nil => intro acc c _; simp
  | cons i infos ih =>
    intro acc c hnd
    simp only [List.foldl_cons]
    rw [ih _ c (fun j hj => hnd j (List.mem_cons_of_mem _ hj))]
    rw [cidr_fold_info_lookup i.vnet_cidr acc c (hnd i (List.mem_cons_self _ _))]
    rw [List.filter_cons]
    by_cases hm : c ∈ i.vnet_cidr
    · rw [if_pos (by simpa using hm)]
      simp [List.append_assoc, hm]
    · rw [if_neg (by simpa using hm)]
      simp [hm]

theorem cidr_fold_info_keys_nodup {info : VnetInfo} :
    ∀ (l : List Ipv4) (acc : List (Ipv4 × List VnetInfo)),
      (acc.map Prod.fst).Nodup →
      ((l.foldl (fun a cc => cidr_insert a cc info) acc).map Prod.fst).Nodup := by
  intro l
  induction l with
  | nil => intro acc h; exact h
  | cons c0 l ih =>
    intro acc h
    simp only [List.foldl_cons]
    apply ih
    rw [cidr_insert_keys]
    by_cases hm : c0 ∈ acc.map Prod.fst
    · rw [if_pos hm]; exact h
    · rw [if_neg hm]
      exact List.Nodup.append h (List.nodup_singleton _)
        (by simpa [List.disjoint_singleton] using hm)

theorem cidr_map_keys_nodup :
    ∀ (infos : List VnetInfo) (acc : List (Ipv4 × List VnetInfo)),
      (acc.map Prod.fst).Nodup →
      ((infos.foldl
        (fun a i => i.vnet_cidr.foldl (fun a2 cc => cidr_insert a2 cc i) a)
        acc).map Prod.fst).Nodup := by
  intro infos
  induction infos with
  | nil => intro acc h; exact h
  | cons i infos ih =>
    intro acc h
    simp only [List.foldl_cons]
    exact ih _ (cidr_fold_info_keys_nodup i.vnet_cidr acc h)

theorem cidr_lookup_of_mem :
    ∀ {acc : List (Ipv4 × List VnetInfo)}, (acc.map Prod.fst).Nodup →
      ∀ {e}, e ∈ acc → cidr_lookup acc e.1 = e.2 := by
  intro acc
  induction acc with
  | nil => intro _ e he; simp at he
  | cons e0 rest ih =>
    intro hnd e he
    rw [List.map_cons] at hnd
    rcases List.nodup_cons.mp hnd with ⟨h0, hnd'⟩
    rcases List.mem_cons.mp he with rfl | he'
    · simp [cidr_lookup]
    · simp only [cidr_lookup]
      rw [if_neg (fun hc => h0 (by rw [hc]; exact List.mem_map_of_mem Prod.fst he'))]
      exact ih hnd' he'

theorem exists_entry_of_lookup_ne :
    ∀ {acc : List (Ipv4 × List VnetInfo)} {c : Ipv4}, cidr_lookup acc c ≠ [] →
      ∃ e ∈ acc, e.1 = c ∧ e.2 = cidr_lookup acc c := by
  intro acc
  induction acc with
  | nil => intro c h; simp [cidr_lookup] at h
  | cons e0 rest ih =>
    intro c h
    simp only [cidr_lookup] at h ⊢
    by_cases h0 : e0.1 = c
    · rw [if_pos h0] at h ⊢
      exact ⟨e0, List.mem_cons_self _ _, h0, rfl⟩
    · rw [if_neg h0] at h ⊢
      rcases ih h with ⟨e, he, h1, h2⟩
      exact ⟨e, List.mem_cons_of_mem _ he, h1, h2⟩

/-- Summary invariants of the identity map, instantiated at the top level. -/
theorem seen_vnets_spec (records : List Subnet) :
    (∀ k, k ∈ (seen_vnets records).map Prod.fst ↔ ∃ s ∈ records, vnet_key s = k) ∧
    ((seen_vnets records).map Prod.fst).Nodup ∧
    (∀ e ∈ seen_vnets records, info_identity e.2 = e.1 ∧
      ∃ s, first_record_with records e.1 = some s ∧ e.2.vnet_cidr = s.vnet_cidr) := by
  have h := seen_vnets_fold_spec records [] [] (by simp) (by simp) (by simp)
  simpa [seen_vnets] using h

/-- The CIDR map's entry for `c` is the in-order list of recorded identities
whose CIDR list contains `c` (per-record duplicate-free lists). -/
theorem cidr_to_vnets_lookup {records : List Subnet}
    (hnodup : ∀ s ∈ records, s.vnet_cidr.Nodup) (c : Ipv4) :
    cidr_lookup (cidr_to_vnets records) c =
      ((seen_vnets records).map Prod.snd).filter
        (fun i => decide (c ∈ i.vnet_cidr)) := by
  rcases seen_vnets_spec records with ⟨_, _, hinv⟩
  have hinfos : ∀ i ∈ (seen_vnets records).map Prod.snd, i.vnet_cidr.Nodup := by
    intro i hi
    rcases List.mem_map.mp hi with ⟨e, he, rfl⟩
    rcases hinv e he with ⟨_, s, hs, hcs⟩
    rw [hcs]
    exact hnodup s (List.mem_of_find?_eq_some hs)
  have h := cidr_fold_lookup ((seen_vnets records).map Prod.snd) [] c hinfos
  simpa [cidr_to_vnets, cidr_lookup] using h

theorem ipv4_le_total (a b : Ipv4) : ipv4_le a b = true ∨ ipv4_le b a = true := by
  by_cases h1 : ipv4_lt a b = true
  · left; simp [ipv4_le, h1]
  · by_cases h2 : ipv4_lt b a = true
    · right; simp [ipv4_le, h2]
    · have heq : a = b :=
        ipv4_lt_cases (Bool.eq_false_iff.mpr h1) (Bool.eq_false_iff.mpr h2)
      left
      simp [ipv4_le, heq]

theorem ipv4_le_trans {a b c : Ipv4} (h1 : ipv4_le a b = true)
    (h2 : ipv4_le b c = true) : ipv4_le a c = true := by
  simp only [ipv4_le, Bool.or_eq_true, decide_eq_true_eq] at h1 h2 ⊢
  rcases h1 with h1 | rfl
  · rcases h2 with h2 | rfl
    · exact Or.inl (ipv4_lt_trans h1 h2)
    · exact Or.inl h1
  · exact h2

/-- The identities listed for `c` in the CIDR map are exactly the advertisers
of `c`, up to order. -/
theorem lookup_identities_perm {records : List Subnet}
    (hnodup : ∀ s ∈ records, s.vnet_cidr.Nodup) (c : Ipv4) :
    ((cidr_lookup (cidr_to_vnets records) c).map info_identity).Perm
      (advertisers records c) := by
  rcases seen_vnets_spec records with ⟨hkeys, hknd, hinv⟩
  rw [cidr_to_vnets_lookup hnodup c]
  have hidmap : ((seen_vnets records).map Prod.snd).map info_identity =
      (seen_vnets records).map Prod.fst := by
    rw [List.map_map]
    exact List.map_congr_left (fun e he => (hinv e he).1)
  refine (List.perm_ext_iff_of_nodup ?_ ?_).mpr ?_
  · -- the filtered identities are a sublist of the (duplicate-free) key list
    have hsub : List.Sublist
        ((((seen_vnets records).map Prod.snd).filter
          (fun i => decide (c ∈ i.vnet_cidr))).map info_identity)
        (((seen_vnets records).map Prod.snd).map info_identity) :=
      (List.filter_sublist _).map _
    rw [hidmap] at hsub
    exact hknd.sublist hsub
  · exact List.Nodup.filter _ first_dedup_aux_nodup
  · intro k
    constructor
    · intro hk
      rcases List.mem_map.mp hk with ⟨i, hi, rfl⟩
      rcases List.mem_filter.mp hi with ⟨hi2, hc⟩
      rcases List.mem_map.mp hi2 with ⟨e, he, rfl⟩
      rcases hinv e he with ⟨hid, s, hs, hcs⟩
      rw [hid]
      have hkmem : e.1 ∈ (seen_vnets records).map Prod.fst :=
        List.mem_map_of_mem Prod.fst he
      have hident : e.1 ∈ vnet_identities records :=
        vnet_identities_mem.mpr ((hkeys e.1).mp hkmem)
      apply List.mem_filter.mpr
      refine ⟨hident, ?_⟩
      rw [hs]
      simp only [decide_eq_true_eq]
      rw [← hcs]
      simpa using hc
    · intro hk
      rcases List.mem_filter.mp hk with ⟨hident, hmatch⟩
      rcases hfr : first_record_with records k with _ | s
      · rw [hfr] at hmatch
        cases hmatch
      · rw [hfr] at hmatch
        simp only [decide_eq_true_eq] at hmatch
        have hkmem : k ∈ (seen_vnets records).map Prod.fst :=
          (hkeys k).mpr (by
            rcases vnet_identities_mem.mp hident with ⟨t, ht, hkt⟩
            exact ⟨t, ht, hkt⟩)
        rcases List.mem_map.mp hkmem with ⟨e, he, rfl⟩
        rcases hinv e he with ⟨hid, s2, hs2, hcs2⟩
        have hss : s2 = s := by
          rw [hfr] at hs2
          injection hs2 with h
          exact h.symm
        subst hss
        apply List.mem_map.mpr
        refine ⟨e.2, ?_, hid⟩
        apply List.mem_filter.mpr
        refine ⟨List.mem_map_of_mem Prod.snd he, ?_⟩
        simp only [decide_eq_true_eq]
        rw [hcs2]
        exact hmatch

/-- C5 counterexample: one single identity listing `10.0.0.0/16` twice yields
a reported conflict, although only one distinct identity advertises the CIDR —
the code counts listings, not distinct identities. -/
theorem find_overlapping_vnets_counterexample :
    (find_overlapping_vnets dup_cidr_data).length = 1 ∧
      (advertisers dup_cidr_data.data ⟨10 * 2 ^ 24, 16⟩).length = 1 := by
  constructor
  · simp only [find_overlapping_vnets, List.length_mergeSort]
    decide
  · decide

/-- C5 (amended): for records whose `vnet_cidr` lists are duplicate-free,
`find_overlapping_vnets` returns a list sorted ascending by CIDR with exactly
one conflict entry per CIDR (the listed CIDRs are duplicate-free), containing
a conflict exactly for those CIDRs advertised by more than one distinct
`(vnet_name, subscription_id)` identity, and each conflict lists (up to
order) precisely the identities advertising its CIDR.  (Without the
duplicate-free amendment the claim fails: a single identity listing a CIDR
twice is also reported — see the counterexample.) -/
theorem find_overlapping_vnets_spec :
    ∀ data : Data, (∀ s ∈ data.data, s.vnet_cidr.Nodup) →
      (find_overlapping_vnets data).Pairwise
        (fun a b => ipv4_le a.cidr b.cidr = true) ∧
      (∀ c : Ipv4, (∃ conf ∈ find_overlapping_vnets data, conf.cidr = c) ↔
        1 < (advertisers data.data c).length) ∧
      (∀ conf ∈ find_overlapping_vnets data,
        (conf.vnets.map info_identity).Perm (advertisers data.data conf.cidr)) ∧
      ((find_overlapping_vnets data).map (fun conf => conf.cidr)).Nodup := by
  intro data hnodup
  have hknd : ((cidr_to_vnets data.data).map Prod.fst).Nodup := by
    apply cidr_map_keys_nodup
    simp
  have hmem : ∀ conf, conf ∈ find_overlapping_vnets data ↔
      ∃ e ∈ cidr_to_vnets data.data, e.2.length > 1 ∧ conf = ⟨e.1, e.2⟩ := by
    intro conf
    simp only [find_overlapping_vnets, List.mem_mergeSort, List.mem_map,
      List.mem_filter]
    constructor
    · rintro ⟨e, ⟨he, hlen⟩, rfl⟩
      exact ⟨e, he, by simpa using hlen, rfl⟩
    · rintro ⟨e, he, hlen, rfl⟩
      exact ⟨e, ⟨he, by simpa using hlen⟩, rfl⟩
  refine ⟨?_, ?_, ?_, ?_⟩
  · have h := @List.sorted_mergeSort _ overlap_le
      (fun a b c h1 h2 => ipv4_le_trans h1 h2)
      (fun a b => by
        rcases ipv4_le_total a.cidr b.cidr with h | h <;> simp [overlap_le, h])
      (((cidr_to_vnets data.data).filter (fun e => e.2.length > 1)).map
        (fun e => OverlapConflict.mk e.1 e.2))
    exact h
  · intro c
    constructor
    · rintro ⟨conf, hconf, rfl⟩
      rcases (hmem conf).mp hconf with ⟨e, he, hlen, rfl⟩
      have hlookup : cidr_lookup (cidr_to_vnets data.data) e.1 = e.2 :=
        cidr_lookup_of_mem hknd he
      have hperm := lookup_identities_perm hnodup e.1
      have hlen2 := hperm.length_eq
      rw [hlookup, List.length_map] at hlen2
      simpa [← hlen2] using hlen
    · intro hadv
      have hperm := lookup_identities_perm hnodup c
      have hlen2 := hperm.length_eq
      rw [List.length_map] at hlen2
      have hlen3 : 1 < (cidr_lookup (cidr_to_vnets data.data) c).length := by
        omega
      have hnonempty : cidr_lookup (cidr_to_vnets data.data) c ≠ [] := by
        intro hc
        rw [hc] at hlen3
        simp at hlen3
      rcases exists_entry_of_lookup_ne hnonempty with ⟨e, he, hec, hev⟩
      refine ⟨⟨e.1, e.2⟩, (hmem _).mpr ⟨e, he, ?_, rfl⟩, hec⟩
      rw [hev]
      exact hlen3
  · intro conf hconf
    rcases (hmem conf).mp hconf with ⟨e, he, _, rfl⟩
    have hlookup : cidr_lookup (cidr_to_vnets data.data) e.1 = e.2 :=
      cidr_lookup_of_mem hknd he
    have hperm := lookup_identities_perm hnodup e.1
    rw [hlookup] at hperm
    exact hperm
  · have hperm2 : (find_overlapping_vnets data).Perm
        (((cidr_to_vnets data.data).filter (fun e => e.2.length > 1)).map
          (fun e => OverlapConflict.mk e.1 e.2)) := by
      simp only [find_overlapping_vnets]
      exact List.mergeSort_perm _ _
    have hsub : List.Sublist
        (((cidr_to_vnets data.data).filter (fun e => e.2.length > 1)).map
          Prod.fst)
        ((cidr_to_vnets data.data).map Prod.fst) :=
      List.Sublist.map Prod.fst (List.filter_sublist _)
    have hnd2 : ((((cidr_to_vnets data.data).filter
        (fun e => e.2.length > 1)).map
        (fun e => OverlapConflict.mk e.1 e.2)).map
        (fun conf => conf.cidr)).Nodup := by
      rw [List.map_map]
      exact List.Nodup.sublist hsub hknd
    exact (hperm2.map (fun conf => conf.cidr)).nodup_iff.mpr hnd2

/-- Witness for the amended C5 at the spec's end-to-end scenario: two VNets in
different subscriptions advertising `10.0.0.0/16` produce a conflict for that
CIDR, there is exactly one conflict entry per CIDR (the conflicts' CIDR list
is duplicate-free), and every reported conflict lists exactly its
advertisers. -/
theorem find_overlapping_vnets_spec_witness :
    (∃ conf ∈ find_overlapping_vnets overlap_data,
      conf.cidr = ⟨10 * 2 ^ 24, 16⟩) ∧
    ((find_overlapping_vnets overlap_data).map (fun conf => conf.cidr)).Nodup ∧
    (∀ conf ∈ find_overlapping_vnets overlap_data,
      (conf.vnets.map info_identity).Perm
        (advertisers overlap_data.data conf.cidr)) := by
  have h := find_overlapping_vnets_spec overlap_data (by decide)
  exact ⟨(h.2.1 ⟨10 * 2 ^ 24, 16⟩).mpr (by decide), h.2.2.2, h.2.2.1⟩

end SubnetSummary
